import Mathlib

/-!
Verification of the sectorized hit-pair graph construction pipeline
(`segmented_graph_construction.py`).

The source operates on pandas/numpy double-precision data.  The embedding
models numeric columns as exact rationals (`ℚ`).  Two float-specific points
are modelled explicitly rather than idealized away:

* `np.pi` is the IEEE-754 double closest to π, an exact rational
  (`npPi` below); the angle-wrapping arithmetic of `calc_dphi` uses it.
* division by zero: in the source, `phi_slope = dphi/dr` and
  `z0 = z_1 - r_1*dz/dr` are IEEE quantities that become `±Inf` or `NaN`
  whenever `dr = 0`; every strict comparison `|…| < bound` and every
  comparison entering the intersecting-layer veto is then false.  The
  embedding expresses this with an explicit `dr ≠ 0` conjunct guarding each
  comparison that consumes such a quotient.

Transcendental primitives (`np.sqrt`, `np.arctan2`, `np.log`, `np.tan`)
have no exact rational counterpart; they are parameters of the embedding
(`sqrtQ`, `atan2Q`, `logQ`, `tanQ`).  No claim depends on their values.
-/

/-- Exact rational value of the IEEE-754 double `np.pi`. -/
def npPi : ℚ := 884279719003555 / 281474976710656

theorem npPi_pos : 0 < npPi := by norm_num [npPi]

/-- Embedding of `calc_dphi(phi1, phi2)`: `phi2 - phi1`, then entries
greater than `np.pi` have `2*np.pi` subtracted, and entries (of the updated
value, matching the sequential in-place numpy updates) smaller than
`-np.pi` have `2*np.pi` added. -/
def calc_dphi (phi1 phi2 : ℚ) : ℚ :=
  let dphi := phi2 - phi1
  let dphi := if dphi > npPi then dphi - 2 * npPi else dphi
  if dphi < -npPi then dphi + 2 * npPi else dphi

/-- Embedding of `calc_eta(r, z) = -log(tan(arctan2(r, z) / 2))`, with the
transcendental primitives passed as parameters. -/
def calc_eta (atan2Q : ℚ → ℚ → ℚ) (logQ tanQ : ℚ → ℚ) (r z : ℚ) : ℚ :=
  -1 * logQ (tanQ (atan2Q r z / 2))

/-- C7 counterexample: with phi1 = π (the double `np.pi`) and phi2 = 0 —
both inside (−π, π] — `calc_dphi` returns exactly −π.  The difference −π is
not strictly below −π, so the strict wrap condition leaves it unchanged,
refuting the claim that the result is never equal to or below −π. -/
theorem calc_dphi_hits_neg_pi :
    (-npPi < npPi ∧ npPi ≤ npPi ∧ -npPi < 0 ∧ (0 : ℚ) ≤ npPi) ∧
    calc_dphi npPi 0 = -npPi ∧ ¬ (-npPi < calc_dphi npPi 0) := by
  refine ⟨by norm_num [npPi], ?_, ?_⟩ <;> norm_num [calc_dphi, npPi]

/-- C7 (amended): for phi1, phi2 each in (−π, π], `calc_dphi` returns
phi2 − phi1 wrapped into the closed interval [−π, π]: a difference greater
than π has 2π subtracted, a difference less than −π has 2π added, a
difference already in [−π, π] is returned unchanged; the result equals −π
exactly when phi2 − phi1 = −π (the strict wrap test leaves −π in place),
and otherwise lies in (−π, π]. -/
theorem calc_dphi_wraps (phi1 phi2 : ℚ)
    (h1l : -npPi < phi1) (h1u : phi1 ≤ npPi)
    (h2l : -npPi < phi2) (h2u : phi2 ≤ npPi) :
    (phi2 - phi1 > npPi → calc_dphi phi1 phi2 = phi2 - phi1 - 2 * npPi) ∧
    (phi2 - phi1 < -npPi → calc_dphi phi1 phi2 = phi2 - phi1 + 2 * npPi) ∧
    (-npPi ≤ phi2 - phi1 → phi2 - phi1 ≤ npPi →
      calc_dphi phi1 phi2 = phi2 - phi1) ∧
    -npPi ≤ calc_dphi phi1 phi2 ∧ calc_dphi phi1 phi2 ≤ npPi ∧
    (calc_dphi phi1 phi2 = -npPi ↔ phi2 - phi1 = -npPi) := by
  have hpi : 0 < npPi := npPi_pos
  simp only [calc_dphi]
  split_ifs with hgt hlt hlt' <;>
    refine ⟨by intro h; linarith, by intro h; linarith,
            by intro h h'; linarith, by linarith, by linarith, ?_⟩ <;>
    constructor <;> intro h <;> linarith

/-- Witness for `calc_dphi_wraps` at phi1 = 0, phi2 = 1. -/
theorem calc_dphi_wraps_witness :
    (-npPi < 0 ∧ (0 : ℚ) ≤ npPi ∧ -npPi < 1 ∧ (1 : ℚ) ≤ npPi) ∧
    ((1 - 0 > npPi → calc_dphi 0 1 = 1 - 0 - 2 * npPi) ∧
     (1 - 0 < -npPi → calc_dphi 0 1 = 1 - 0 + 2 * npPi) ∧
     (-npPi ≤ 1 - 0 → 1 - 0 ≤ npPi → calc_dphi 0 1 = 1 - 0) ∧
     -npPi ≤ calc_dphi 0 1 ∧ calc_dphi 0 1 ≤ npPi ∧
     (calc_dphi 0 1 = -npPi ↔ 1 - 0 = -npPi)) :=
  ⟨by norm_num [npPi],
   calc_dphi_wraps 0 1 (by norm_num [npPi]) (by norm_num [npPi])
     (by norm_num [npPi]) (by norm_num [npPi])⟩

/-- Row of the post-selection hits table consumed by the graph-construction
functions: columns `hit_id, r, phi, eta, z, evtid, layer, module_id,
particle_id` (plus the pandas row index used as edge endpoint identifier,
the `pt`/`eta_pt` truth columns present until they are stripped before
sectorization, and the sector labels assigned by
`split_detector_sectors`). -/
structure Hit where
  index : ℕ
  hit_id : ℕ
  r : ℚ
  phi : ℚ
  z : ℚ
  eta : ℚ := 0
  evtid : ℤ := 0
  layer : ℕ
  module_id : ℕ := 0
  particle_id : ℕ
  pt : ℚ := 0
  eta_pt : ℚ := 0
  phi_sector : ℕ := 0
  eta_sector : ℕ := 0
deriving DecidableEq, Repr

/-- Edge-selection predicate of `select_edges` (lines 39–76 of the source):
geometric features of the line through the hit pair, the strict
`|phi_slope| < phi_slope_max` and `|z0| < z0_max` cuts, the
intersecting-layer veto for barrel layers 0 and 1 paired with endcap
innermost layers 4 or 11 (the default veto `dr.abs() < -1` is always
false), and the optional module-map lookup.  Each quotient by `dr` carries
the explicit `dr ≠ 0` guard that models the IEEE `±Inf`/`NaN` comparisons
(see the file header). -/
def good_edge (layer1 layer2 : ℕ) (phi_slope_max z0_max : ℚ)
    (module_map : Option (ℕ → ℕ → Bool)) (h1 h2 : Hit) : Bool :=
  let dphi := calc_dphi h1.phi h2.phi
  let dz := h2.z - h1.z
  let dr := h2.r - h1.r
  let z0v := h1.z - h1.r * dz / dr
  let intersected : Bool :=
    if layer1 = 0 ∧ (layer2 = 11 ∨ layer2 = 4) then
      decide (dr ≠ 0 ∧
        -(490975 / 1000 : ℚ) < 7156298065185547 / 100000000000000 * dz / dr + z0v ∧
        7156298065185547 / 100000000000000 * dz / dr + z0v < 490975 / 1000)
    else if layer1 = 1 ∧ (layer2 = 11 ∨ layer2 = 4) then
      decide (dr ≠ 0 ∧
        -(490975 / 1000 : ℚ) < 11537811279296875 / 100000000000000 * dz / dr + z0v ∧
        11537811279296875 / 100000000000000 * dz / dr + z0v < 490975 / 1000)
    else false
  let in_module_map : Bool :=
    match module_map with
    | none => true
    | some m => m h1.module_id h2.module_id
  decide (dr ≠ 0 ∧ |dphi / dr| < phi_slope_max) &&
    decide (dr ≠ 0 ∧ |z0v| < z0_max) &&
    (intersected == false) && in_module_map

/-- Embedding of `select_edges`: the cross join of `hits1` with `hits2`
restricted to equal `evtid` (the pandas merge on `evtid`), filtered by the
selection mask.  The per-edge features `dr, dphi, dz, dR` returned
alongside in the source are functions of the kept pair (`edge_dr` etc.
below) and are not needed by any claim. -/
def select_edges (hits1 hits2 : List Hit) (layer1 layer2 : ℕ)
    (phi_slope_max z0_max : ℚ) (module_map : Option (ℕ → ℕ → Bool)) :
    List (Hit × Hit) :=
  (hits1.flatMap (fun h1 =>
      (hits2.filter (fun h2 => h2.evtid == h1.evtid)).map (fun h2 => (h1, h2)))).filter
    (fun e => good_edge layer1 layer2 phi_slope_max z0_max module_map e.1 e.2)

/-- Feature `dr` of a kept edge. -/
def edge_dr (h1 h2 : Hit) : ℚ := h2.r - h1.r

/-- Feature `dphi` of a kept edge. -/
def edge_dphi (h1 h2 : Hit) : ℚ := calc_dphi h1.phi h2.phi

/-- Feature `dz` of a kept edge. -/
def edge_dz (h1 h2 : Hit) : ℚ := h2.z - h1.z

/-- The `phi_slope = dphi / dr` quantity of line 49 of the source. -/
def phi_slope (h1 h2 : Hit) : ℚ := calc_dphi h1.phi h2.phi / (h2.r - h1.r)

/-- The `z0 = z_1 - r_1 * dz / dr` quantity of line 50 of the source. -/
def z0 (h1 h2 : Hit) : ℚ := h1.z - h1.r * (h2.z - h1.z) / (h2.r - h1.r)

/-- The six barrel-to-endcap layer-pair types of `check_truth_labels`
(lines 97–98 of the source): barrel layers 0, 1, 2 paired with the
innermost left-endcap layer 4 or the innermost right-endcap layer 11. -/
def barrel_to_endcaps : List (ℕ × ℕ) := [(0, 4), (1, 4), (2, 4), (0, 11), (1, 11), (2, 11)]

/-- Rows `(edge, (label, particle_id))` of particle `p` whose label is
true, mapped to the `(layer_1, layer_2)` pair of the edge — the
`particle_l1/particle_l2` arrays of `check_truth_labels` zipped. -/
def true_edge_layer_pairs (edges : List (Hit × Hit)) (y : List Bool)
    (particle_ids : List ℕ) (p : ℕ) : List (ℕ × ℕ) :=
  ((edges.zip (y.zip particle_ids)).filter (fun row => row.2.2 == p && row.2.1)).map
    (fun row => (row.1.1.layer, row.1.2.layer))

/-- Size of `set(zip(particle_l1, particle_l2)).intersection(barrel_to_endcaps)`
for one particle: the distinct layer pairs of the particle's true edges
that are transition pairs. -/
def transition_count (edges : List (Hit × Hit)) (y : List Bool)
    (particle_ids : List ℕ) (p : ℕ) : ℕ :=
  ((true_edge_layer_pairs edges y particle_ids p).dedup.filter
    (fun lp => decide (lp ∈ barrel_to_endcaps))).length

/-- Embedding of `check_truth_labels(hits, edges, y, particle_ids)`: loop
over the particle ids appearing in `hits` (the `groupby('particle_id')`
keys), incrementing `n_incorrect` by one for each particle with more than
one distinct transition layer pair among its true edges.  Only the count is
returned; the edge list is not touched. -/
def check_truth_labels (hits : List Hit) (edges : List (Hit × Hit))
    (y : List Bool) (particle_ids : List ℕ) : ℕ :=
  ((hits.map (fun h => h.particle_id)).dedup).foldl
    (fun n p => if 1 < transition_count edges y particle_ids p then n + 1 else n) 0

/-- Output record of `construct_graph`: node count (rows of `x`), kept
edges, 0/1 edge labels, sector label, truth-correction count.  The node
feature matrix and scaled edge attributes are row-wise images of `hits` and
`edges` and carry no information a claim needs. -/
structure Graph where
  n_nodes : ℕ
  edges : List (Hit × Hit)
  y : List Bool
  s : ℕ × ℕ
  n_incorrect : ℕ
deriving DecidableEq, Repr

/-- The edge list built by `construct_graph`: per declared layer pair,
`select_edges` on the layer groups of `hits` (an absent layer yields an
empty group and hence no edges, matching the skipped `KeyError` branch),
concatenated. -/
def construct_graph_edges (hits : List Hit) (layer_pairs : List (ℕ × ℕ))
    (phi_slope_max z0_max : ℚ) (module_maps : Option ((ℕ × ℕ) → ℕ → ℕ → Bool)) :
    List (Hit × Hit) :=
  layer_pairs.flatMap (fun lp =>
    select_edges (hits.filter (fun h => h.layer == lp.1))
      (hits.filter (fun h => h.layer == lp.2)) lp.1 lp.2
      phi_slope_max z0_max (module_maps.map (fun m => m lp)))

/-- Embedding of `construct_graph`: edges across all layer pairs, labels
`y = (pid1 == pid2) & (pid1 > 0) & (pid2 > 0)`, and the truth correction.
In the source `check_truth_labels` is skipped when no layer pair produced a
data frame, returning `n_incorrect = 0`; on an empty edge list
`check_truth_labels` returns 0 as well, so it is called unconditionally
here. -/
def construct_graph (hits : List Hit) (layer_pairs : List (ℕ × ℕ))
    (phi_slope_max z0_max : ℚ) (module_maps : Option ((ℕ × ℕ) → ℕ → ℕ → Bool))
    (s : ℕ × ℕ) : Graph :=
  let edges := construct_graph_edges hits layer_pairs phi_slope_max z0_max module_maps
  let y := edges.map (fun e =>
    decide (e.1.particle_id = e.2.particle_id ∧ 0 < e.1.particle_id ∧ 0 < e.2.particle_id))
  { n_nodes := hits.length, edges := edges, y := y, s := s,
    n_incorrect := check_truth_labels hits edges y (edges.map (fun e => e.1.particle_id)) }

theorem foldl_ite_add_countP {α : Type} (q : α → Prop) [DecidablePred q]
    (l : List α) (n : ℕ) :
    l.foldl (fun n a => if q a then n + 1 else n) n = n + l.countP (fun a => decide (q a)) := by
  induction l generalizing n with
  | nil => simp
  | cons a t ih => by_cases h : q a <;> simp [List.countP_cons, h, ih] <;> omega

theorem length_filter_dedup_comm {α : Type} [DecidableEq α] (l : List α) (q : α → Bool) :
    (l.dedup.filter q).length = (l.filter q).dedup.length := by
  have h1 : (l.dedup.filter q).Nodup := (List.nodup_dedup l).filter q
  have h2 : (l.filter q).dedup.Nodup := List.nodup_dedup _
  have hperm : (l.dedup.filter q).Perm (l.filter q).dedup := by
    rw [List.perm_ext_iff_of_nodup h1 h2]
    intro a
    simp [List.mem_filter, List.mem_dedup]
  exact hperm.length_eq

/-- Number of distinct transition layer-pair types among the true edges of
particle `p`, stated independently of the loop body: the finite set of
`(layer_1, layer_2)` pairs of `p`'s true-labeled edges lying in
`barrel_to_endcaps`. -/
def distinct_transition_types (edges : List (Hit × Hit)) (y : List Bool)
    (particle_ids : List ℕ) (p : ℕ) : ℕ :=
  (((true_edge_layer_pairs edges y particle_ids p).filter
    (fun lp => decide (lp ∈ barrel_to_endcaps))).toFinset).card

theorem transition_count_eq_distinct (edges : List (Hit × Hit)) (y : List Bool)
    (particle_ids : List ℕ) (p : ℕ) :
    transition_count edges y particle_ids p = distinct_transition_types edges y particle_ids p := by
  rw [transition_count, distinct_transition_types, List.card_toFinset,
    length_filter_dedup_comm]

/-- C2 (amended): `n_incorrect` counts the particles (one increment each,
regardless of how many duplicate transition edges they produced) whose true
edges span more than one distinct transition layer-pair type, the
transition types being barrel layers 0, 1 or 2 paired with endcap layer 4
or 11 — six types, not only the four (barrel 0 or 1) used by the
intersecting-line veto.  The edge list itself is left untouched. -/
theorem check_truth_labels_counts_particles (hits : List Hit)
    (edges : List (Hit × Hit)) (y : List Bool) (particle_ids : List ℕ) :
    check_truth_labels hits edges y particle_ids =
      ((hits.map (fun h => h.particle_id)).dedup).countP
        (fun p => decide (1 < distinct_transition_types edges y particle_ids p)) := by
  rw [check_truth_labels, foldl_ite_add_countP, Nat.zero_add]
  congr 1
  funext p
  rw [transition_count_eq_distinct]

/-- C1: every edge emitted by `construct_graph` (via `select_edges` on one
of the declared layer pairs) has its first endpoint in the pair's first
layer and its second endpoint in the pair's second layer, and satisfies the
strict geometric cuts |phi_slope| < phi_slope_max and |z0| < z0_max. -/
theorem construct_graph_edges_sound (hits : List Hit) (layer_pairs : List (ℕ × ℕ))
    (phi_slope_max z0_max : ℚ) (module_maps : Option ((ℕ × ℕ) → ℕ → ℕ → Bool))
    (s : ℕ × ℕ) (e : Hit × Hit)
    (he : e ∈ (construct_graph hits layer_pairs phi_slope_max z0_max module_maps s).edges) :
    ∃ lp ∈ layer_pairs, e.1.layer = lp.1 ∧ e.2.layer = lp.2 ∧
      |phi_slope e.1 e.2| < phi_slope_max ∧ |z0 e.1 e.2| < z0_max := by
  simp only [construct_graph, construct_graph_edges] at he
  obtain ⟨lp, hlp, hmem⟩ := List.mem_flatMap.mp he
  refine ⟨lp, hlp, ?_⟩
  rw [select_edges, List.mem_filter] at hmem
  obtain ⟨hcross, hgood⟩ := hmem
  obtain ⟨h1, h1mem, h2mem⟩ := List.mem_flatMap.mp hcross
  obtain ⟨h2, h2mem', heq⟩ := List.mem_map.mp h2mem
  obtain ⟨_, h1lay⟩ := List.mem_filter.mp h1mem
  obtain ⟨h2a, _⟩ := List.mem_filter.mp h2mem'
  obtain ⟨_, h2lay⟩ := List.mem_filter.mp h2a
  subst heq
  simp only [beq_iff_eq] at h1lay h2lay
  simp only [good_edge, Bool.and_eq_true, decide_eq_true_eq] at hgood
  refine ⟨h1lay, h2lay, ?_, ?_⟩
  · simp only [phi_slope]
    exact hgood.1.1.1.2
  · simp only [z0]
    exact hgood.1.1.2.2

/-- Concrete hit in barrel layer 0 used by witnesses. -/
def hitA : Hit := { index := 0, hit_id := 1, r := 1, phi := 0, z := 0, layer := 0, particle_id := 1 }

/-- Concrete hit in barrel layer 1 at a larger radius. -/
def hitB : Hit := { index := 1, hit_id := 2, r := 2, phi := 0, z := 0, layer := 1, particle_id := 1 }

/-- Concrete hit in barrel layer 1 at the same radius as `hitA`. -/
def hitB' : Hit := { index := 2, hit_id := 3, r := 1, phi := 0, z := 0, layer := 1, particle_id := 1 }

/-- Witness for `construct_graph_edges_sound`: the edge (hitA, hitB) is
produced for layer pair (0, 1) and satisfies the cuts. -/
theorem construct_graph_edges_sound_witness :
    (hitA, hitB) ∈ (construct_graph [hitA, hitB] [(0, 1)] 1 10 none (0, 0)).edges ∧
    ∃ lp ∈ [((0 : ℕ), (1 : ℕ))], hitA.layer = lp.1 ∧ hitB.layer = lp.2 ∧
      |phi_slope hitA hitB| < 1 ∧ |z0 hitA hitB| < 10 :=
  ⟨by norm_num [construct_graph, construct_graph_edges, select_edges, good_edge,
      hitA, hitB, calc_dphi, npPi, abs_lt],
   construct_graph_edges_sound [hitA, hitB] [(0, 1)] 1 10 none (0, 0) (hitA, hitB)
     (by norm_num [construct_graph, construct_graph_edges, select_edges, good_edge,
        hitA, hitB, calc_dphi, npPi, abs_lt])⟩

/-- C10: `select_edges` never keeps a pair with equal radii — whenever
`dr = 0` the IEEE quantities `phi_slope` and `z0` are infinite or undefined
and fail the strict cuts (modelled by the `dr ≠ 0` guards of `good_edge`),
so every kept edge has `r_2 ≠ r_1`, and a hit pair with equal radii is
never in the output. -/
theorem select_edges_excludes_equal_radii (hits1 hits2 : List Hit) (layer1 layer2 : ℕ)
    (phi_slope_max z0_max : ℚ) (module_map : Option (ℕ → ℕ → Bool)) :
    (∀ e ∈ select_edges hits1 hits2 layer1 layer2 phi_slope_max z0_max module_map,
       e.2.r ≠ e.1.r) ∧
    (∀ h1 h2 : Hit, h2.r = h1.r →
       (h1, h2) ∉ select_edges hits1 hits2 layer1 layer2 phi_slope_max z0_max module_map) := by
  constructor
  · intro e he
    rw [select_edges, List.mem_filter] at he
    have hgood := he.2
    simp only [good_edge, Bool.and_eq_true, decide_eq_true_eq] at hgood
    exact sub_ne_zero.mp hgood.1.1.1.1
  · intro h1 h2 hr hmem
    rw [select_edges, List.mem_filter] at hmem
    have hgood := hmem.2
    simp only [good_edge, Bool.and_eq_true, decide_eq_true_eq] at hgood
    exact hgood.1.1.1.1 (sub_eq_zero_of_eq hr)

/-- Witness for `select_edges_excludes_equal_radii`: the equal-radius pair
(hitA, hitB') is excluded. -/
theorem select_edges_excludes_equal_radii_witness :
    hitB'.r = hitA.r ∧
    (hitA, hitB') ∉ select_edges [hitA] [hitB'] 0 1 1 10 none :=
  ⟨by decide,
   (select_edges_excludes_equal_radii [hitA] [hitB'] 0 1 1 10 none).2 hitA hitB' (by decide)⟩

/-- Hit of particle 1 in barrel layer 2, for the C2 counterexample. -/
def hitL2 : Hit := { index := 0, hit_id := 11, r := 3, phi := 0, z := 0, layer := 2, particle_id := 1 }

/-- Hit of particle 1 in endcap layer 4, for the C2 counterexample. -/
def hitL4 : Hit := { index := 1, hit_id := 12, r := 4, phi := 0, z := 5, layer := 4, particle_id := 1 }

/-- Hit of particle 1 in barrel layer 0, for the C2 counterexample. -/
def hitL0 : Hit := { index := 2, hit_id := 13, r := 1, phi := 0, z := 0, layer := 0, particle_id := 1 }

/-- Modelled from the claim's wording: the transition layer-pair types it
declares, namely only barrel layers 0 and 1 paired with layer 4 or 11 (the
two veto cases), not barrel layer 2. -/
def claimed_transition_types : List (ℕ × ℕ) := [(0, 4), (1, 4), (0, 11), (1, 11)]

/-- Count of particles the claim predicts `n_incorrect` to be: particles
with more than one distinct layer pair from `claimed_transition_types`
among their true edges. -/
def claimed_n_incorrect (hits : List Hit) (edges : List (Hit × Hit))
    (y : List Bool) (particle_ids : List ℕ) : ℕ :=
  ((hits.map (fun h => h.particle_id)).dedup).countP (fun p =>
    decide (1 < (((true_edge_layer_pairs edges y particle_ids p).filter
      (fun lp => decide (lp ∈ claimed_transition_types))).toFinset).card))

/-- C2 counterexample: a particle with true edges of layer-pair types
(2, 4) and (0, 4).  The source counts two distinct types from its six-type
set {0,1,2} × {4,11} and increments `n_incorrect`, while the claim's
four-type set (barrel layers 0 and 1 only) sees a single type and predicts
no increment: the code returns 1 where the claim says 0. -/
theorem check_truth_labels_layer2_cex :
    check_truth_labels [hitL2, hitL4, hitL0]
        [(hitL2, hitL4), (hitL0, hitL4)] [true, true] [1, 1] = 1 ∧
    claimed_n_incorrect [hitL2, hitL4, hitL0]
        [(hitL2, hitL4), (hitL0, hitL4)] [true, true] [1, 1] = 0 := by
  constructor <;> decide

/-- Embedding of `np.unique` on a layer-index array: sorted distinct
values. -/
def np_unique (l : List ℕ) : List ℕ := List.insertionSort (· ≤ ·) l.dedup

theorem np_unique_nodup (l : List ℕ) : (np_unique l).Nodup :=
  (List.perm_insertionSort (· ≤ ·) l.dedup).symm.nodup (List.nodup_dedup l)

theorem zip_tail_nodup {α : Type} [DecidableEq α] :
    ∀ l : List α, l.Nodup → (l.zip l.tail).Nodup
  | [], _ => by simp
  | [_], _ => by simp
  | a :: b :: t, h => by
    simp only [List.tail_cons, List.zip_cons_cons]
    refine List.Nodup.cons ?_ (zip_tail_nodup (b :: t) (List.nodup_cons.mp h).2)
    intro hmem
    exact (List.nodup_cons.mp h).1 (List.of_mem_zip hmem).1

theorem chain'_iff_zip_tail {α : Type} (R : α → α → Prop) :
    ∀ l : List α, List.Chain' R l ↔ ∀ p ∈ l.zip l.tail, R p.1 p.2
  | [] => by simp
  | [_] => by simp
  | a :: b :: t => by
    rw [List.chain'_cons, chain'_iff_zip_tail R (b :: t)]
    simp only [List.tail_cons, List.zip_cons_cons, List.mem_cons]
    constructor
    · rintro ⟨hab, hrest⟩ p (rfl | hp)
      · exact hab
      · exact hrest p hp
    · intro hall
      exact ⟨hall (a, b) (Or.inl rfl), fun p hp => hall p (Or.inr hp)⟩

/-- Per-particle truth record of `get_particle_properties`. -/
structure PProps where
  pt : ℚ
  eta : ℚ
  n_track_segs : ℕ
  reconstructable : Bool
deriving DecidableEq, Repr

/-- Loop body of `get_particle_properties` for one `(particle_id,
particle_hits)` group: noise stores zeros; otherwise pt/eta come from the
first hit of the group, the particle's layer pairs are the consecutive
pairs of its sorted unique layer indices (`set(zip(layers[:-1],
layers[1:]))`), reconstructability demands all of them be valid
connections, and the track-segment count sums `hits_per_layer[a] *
hits_per_layer[b]` over the valid ones. -/
def particle_properties_one (particle_id : ℕ) (particle_hits : List Hit)
    (valid_connections : List (ℕ × ℕ)) : PProps :=
  if particle_id = 0 then
    { pt := 0, eta := 0, n_track_segs := 0, reconstructable := false }
  else
    let layers_hit := particle_hits.map (fun h => h.layer)
    let layers := np_unique layers_hit
    let ptv := (particle_hits.map (fun h => h.pt)).headD 0
    let etav := (particle_hits.map (fun h => h.eta_pt)).headD 0
    if layers.length = 1 then
      { pt := ptv, eta := etav, n_track_segs := 0, reconstructable := false }
    else
      let layer_pairs := (layers.zip layers.tail).dedup
      let good := layer_pairs.filter (fun lp => decide (lp ∈ valid_connections))
      { pt := ptv, eta := etav,
        n_track_segs := (good.map (fun lp => layers_hit.count lp.1 * layers_hit.count lp.2)).sum,
        reconstructable := layer_pairs.all (fun lp => decide (lp ∈ valid_connections)) }

/-- Embedding of `get_particle_properties`: loop over the
`groupby('particle_id')` groups (keys sorted and distinct), producing the
per-particle records keyed by particle id. -/
def get_particle_properties (hits : List Hit) (valid_connections : List (ℕ × ℕ)) :
    List (ℕ × PProps) :=
  (np_unique (hits.map (fun h => h.particle_id))).map (fun p =>
    (p, particle_properties_one p (hits.filter (fun h => h.particle_id == p)) valid_connections))

/-- C3: for every record of `get_particle_properties` — with `L` the layer
multiset of the particle's hits and `U` its sorted unique layer indices —
a non-noise particle with hits in at least two layers is reconstructable
iff every consecutive pair of `U` is a valid connection (stated as a
`Chain'`), and its expected track-segment count is the sum over the
consecutive pairs of `U` that are valid of (hits in first layer) × (hits
in second layer); noise and single-layer particles get zero segments and
are not reconstructable. -/
theorem get_particle_properties_sound (hits : List Hit)
    (valid_connections : List (ℕ × ℕ)) (p : ℕ) (pr : PProps)
    (hmem : (p, pr) ∈ get_particle_properties hits valid_connections) :
    (p ≠ 0 → 2 ≤ (np_unique ((hits.filter (fun h => h.particle_id == p)).map (fun h => h.layer))).length →
      (pr.reconstructable = true ↔
        List.Chain' (fun a b => (a, b) ∈ valid_connections)
          (np_unique ((hits.filter (fun h => h.particle_id == p)).map (fun h => h.layer)))) ∧
      pr.n_track_segs =
        (((let U := np_unique ((hits.filter (fun h => h.particle_id == p)).map (fun h => h.layer));
           U.zip U.tail).filter (fun lp => decide (lp ∈ valid_connections))).map
          (fun lp => ((hits.filter (fun h => h.particle_id == p)).map (fun h => h.layer)).count lp.1 *
                     ((hits.filter (fun h => h.particle_id == p)).map (fun h => h.layer)).count lp.2)).sum) ∧
    (p = 0 → pr.n_track_segs = 0 ∧ pr.reconstructable = false) ∧
    (p ≠ 0 →
      (np_unique ((hits.filter (fun h => h.particle_id == p)).map (fun h => h.layer))).length = 1 →
      pr.n_track_segs = 0 ∧ pr.reconstructable = false) := by
  obtain ⟨q, hq, heq⟩ := List.mem_map.mp hmem
  obtain ⟨hpq, hpr⟩ := Prod.mk.inj heq
  subst hpq
  subst hpr
  have hdedup :
      ((np_unique ((hits.filter (fun h => h.particle_id == q)).map (fun h => h.layer))).zip
        (np_unique ((hits.filter (fun h => h.particle_id == q)).map (fun h => h.layer))).tail).dedup =
      (np_unique ((hits.filter (fun h => h.particle_id == q)).map (fun h => h.layer))).zip
        (np_unique ((hits.filter (fun h => h.particle_id == q)).map (fun h => h.layer))).tail :=
    List.dedup_eq_self.mpr (zip_tail_nodup _ (np_unique_nodup _))
  refine ⟨?_, ?_, ?_⟩
  · intro hp0 hlen
    have hne1 : ¬ (np_unique ((hits.filter (fun h => h.particle_id == q)).map
        (fun h => h.layer))).length = 1 := by omega
    rw [particle_properties_one, if_neg hp0, if_neg hne1]
    constructor
    · show (((np_unique _).zip (np_unique _).tail).dedup.all
          (fun lp => decide (lp ∈ valid_connections)) = true) ↔ _
      rw [hdedup, List.all_eq_true, chain'_iff_zip_tail]
      constructor
      · intro hall q hq
        exact decide_eq_true_eq.mp (hall q hq)
      · intro hall q hq
        exact decide_eq_true_eq.mpr (hall q hq)
    · show (((((np_unique _).zip (np_unique _).tail).dedup.filter
          (fun lp => decide (lp ∈ valid_connections))).map _).sum) = _
      rw [hdedup]
  · intro hp0
    subst hp0
    rw [particle_properties_one, if_pos rfl]
    exact ⟨rfl, rfl⟩
  · intro hp0 hlen
    rw [particle_properties_one, if_neg hp0, if_pos hlen]
    exact ⟨rfl, rfl⟩

/-- Record produced by `get_particle_properties` for particle 1 of the
witness event. -/
def prC3 : PProps := { pt := 0, eta := 0, n_track_segs := 1, reconstructable := true }

/-- Witness for `get_particle_properties_sound`: particle 1 with hits in
layers 0 and 1 and valid set [(0, 1)]. -/
theorem get_particle_properties_sound_witness :
    ((1, prC3) ∈ get_particle_properties [hitA, hitB] [(0, 1)]) ∧
    ((1 ≠ 0 → 2 ≤ (np_unique ((([hitA, hitB].filter (fun h => h.particle_id == 1))).map (fun h => h.layer))).length →
      (prC3.reconstructable = true ↔
        List.Chain' (fun a b => (a, b) ∈ [((0 : ℕ), (1 : ℕ))])
          (np_unique ((([hitA, hitB].filter (fun h => h.particle_id == 1))).map (fun h => h.layer)))) ∧
      prC3.n_track_segs =
        (((let U := np_unique ((([hitA, hitB].filter (fun h => h.particle_id == 1))).map (fun h => h.layer));
           U.zip U.tail).filter (fun lp => decide (lp ∈ [((0 : ℕ), (1 : ℕ))]))).map
          (fun lp => (([hitA, hitB].filter (fun h => h.particle_id == 1)).map (fun h => h.layer)).count lp.1 *
                     (([hitA, hitB].filter (fun h => h.particle_id == 1)).map (fun h => h.layer)).count lp.2)).sum) ∧
    ((1 : ℕ) = 0 → prC3.n_track_segs = 0 ∧ prC3.reconstructable = false) ∧
    ((1 : ℕ) ≠ 0 →
      (np_unique ((([hitA, hitB].filter (fun h => h.particle_id == 1))).map (fun h => h.layer))).length = 1 →
      prC3.n_track_segs = 0 ∧ prC3.reconstructable = false)) :=
  ⟨by decide,
   get_particle_properties_sound [hitA, hitB] [(0, 1)] 1 prC3 (by decide)⟩

/-- Strict-interior test of `x` against the `i`-th interval of a boundary
array: `edges[i] < x < edges[i+1]` with exclusive bounds on both ends. -/
def in_interval (edges : List ℚ) (i : ℕ) (x : ℚ) : Bool :=
  decide (edges.getD i 0 < x ∧ x < edges.getD (i + 1) 0)

/-- Number of intervals of the boundary array that contain `x` strictly. -/
def strict_count (edges : List ℚ) (x : ℚ) : ℕ :=
  (List.range (edges.length - 1)).countP (fun i => in_interval edges i x)

/-- Test whether `x` lies strictly inside at least one interval. -/
def strict_interior (edges : List ℚ) (x : ℚ) : Bool :=
  (List.range (edges.length - 1)).any (fun i => in_interval edges i x)

/-- `x` coincides with one of the boundary values. -/
def on_boundary (edges : List ℚ) (x : ℚ) : Prop :=
  ∃ k < edges.length, x = edges.getD k 0

/-- Embedding of `split_detector_sectors(hits, phi_edges, eta_edges)`:
for each phi interval, the hits with phi strictly inside, recentred on the
interval midpoint and labelled `phi_sector = i`; within each, for each eta
interval, the hits whose eta (recomputed from r and z via `calc_eta`)
falls strictly inside, labelled `eta_sector = j`; keyed by
`s = (eta_sector, phi_sector)`.  The parallel `sector_info` map of
eta/phi ranges is `sector_info_ranges` below. -/
def split_detector_sectors (atan2Q : ℚ → ℚ → ℚ) (logQ tanQ : ℚ → ℚ)
    (hits : List Hit) (phi_edges eta_edges : List ℚ) :
    List ((ℕ × ℕ) × List Hit) :=
  (List.range (phi_edges.length - 1)).flatMap (fun i =>
    let phi_min := phi_edges.getD i 0
    let phi_max := phi_edges.getD (i + 1) 0
    let phi_hits := (hits.filter (fun h => in_interval phi_edges i h.phi)).map
      (fun h => { h with phi := h.phi - (phi_min + phi_max) / 2, phi_sector := i })
    (List.range (eta_edges.length - 1)).map (fun j =>
      ((j, i),
        (phi_hits.filter (fun h =>
            in_interval eta_edges j (calc_eta atan2Q logQ tanQ h.r h.z))).map
          (fun h => { h with eta_sector := j }))))

/-- The `sector_info` mapping of `split_detector_sectors`: eta range and
phi range per sector key. -/
def sector_info_ranges (phi_edges eta_edges : List ℚ) :
    List ((ℕ × ℕ) × ((ℚ × ℚ) × (ℚ × ℚ))) :=
  (List.range (phi_edges.length - 1)).flatMap (fun i =>
    (List.range (eta_edges.length - 1)).map (fun j =>
      ((j, i), ((eta_edges.getD j 0, eta_edges.getD (j + 1) 0),
                (phi_edges.getD i 0, phi_edges.getD (i + 1) 0)))))

/-- Number of copies of hit `h` (identified by `hit_id`) placed across all
sectors of a sector assignment. -/
def placed_count (sectors : List ((ℕ × ℕ) × List Hit)) (h : Hit) : ℕ :=
  (sectors.map (fun sec => sec.2.countP (fun h2 => h2.hit_id == h.hit_id))).sum

theorem sum_flatMap_nat {α : Type} (l : List α) (f : α → List ℕ) :
    (l.flatMap f).sum = (l.map (fun a => (f a).sum)).sum := by
  induction l with
  | nil => simp
  | cons a t ih => simp [List.flatMap_cons, List.sum_append, ih]

theorem sum_map_add_nat {α : Type} (l : List α) (f g : α → ℕ) :
    (l.map (fun a => f a + g a)).sum = (l.map f).sum + (l.map g).sum := by
  induction l with
  | nil => simp
  | cons a t ih => simp [ih]; omega

theorem sum_map_ite_one {α : Type} (l : List α) (p : α → Bool) :
    (l.map (fun a => if p a = true then 1 else 0)).sum = l.countP p := by
  induction l with
  | nil => simp
  | cons a t ih =>
    by_cases h : p a = true <;> simp [List.countP_cons, h, ih] <;> omega

theorem sum_map_ite_const {α : Type} (l : List α) (p : α → Bool) (c : ℕ) :
    (l.map (fun a => if p a = true then c else 0)).sum = l.countP p * c := by
  induction l with
  | nil => simp
  | cons a t ih =>
    by_cases h : p a = true <;> simp [List.countP_cons, h, ih] <;> ring

theorem sum_countP_swap {α : Type} (qs : List (α → Bool)) (l : List α) :
    (qs.map (fun q => l.countP q)).sum = (l.map (fun a => qs.countP (fun q => q a))).sum := by
  induction l with
  | nil => simp
  | cons a t ih =>
    simp only [List.countP_cons, List.map_cons, List.sum_cons]
    have h1 := sum_map_add_nat qs (fun q => List.countP q t) (fun q => if q a = true then 1 else 0)
    simp only at h1
    rw [h1, ih]
    have h2 := sum_map_ite_one qs (fun q => q a)
    simp only at h2
    rw [h2]
    exact Nat.add_comm _ _

theorem countP_hit_id_filter (l : List Hit) (h : Hit) (hh : h ∈ l)
    (hnd : (l.map (fun x => x.hit_id)).Nodup) (p : Hit → Bool) :
    (l.filter p).countP (fun h2 => h2.hit_id == h.hit_id) = if p h = true then 1 else 0 := by
  induction l with
  | nil => cases hh
  | cons a t ih =>
    simp only [List.map_cons, List.nodup_cons] at hnd
    obtain ⟨hanin, htnd⟩ := hnd
    rcases List.mem_cons.mp hh with rfl | hht
    · have hzero : (t.filter p).countP (fun h2 => h2.hit_id == h.hit_id) = 0 := by
        rw [List.countP_eq_zero]
        intro b hb
        simp only [beq_iff_eq]
        intro hbid
        exact hanin (hbid ▸ List.mem_map_of_mem (fun x => x.hit_id) (List.mem_filter.mp hb).1)
      rw [List.filter_cons]
      by_cases hpa : p h = true
      · rw [if_pos hpa, if_pos hpa, List.countP_cons, hzero]
        simp
      · rw [if_neg hpa, if_neg hpa, hzero]
    · have haid : (a.hit_id == h.hit_id) = false := by
        simp only [beq_eq_false_iff_ne, ne_eq]
        intro heq
        exact hanin (heq ▸ List.mem_map_of_mem (fun x => x.hit_id) hht)
      rw [List.filter_cons]
      by_cases hpa : p a = true
      · rw [if_pos hpa, List.countP_cons, haid, ih hht htnd]
        simp
      · rw [if_neg hpa, ih hht htnd]

theorem countP_le_one_of_unique {α : Type} (l : List α) (hn : l.Nodup) (p : α → Bool)
    (hu : ∀ a ∈ l, ∀ b ∈ l, p a = true → p b = true → a = b) : l.countP p ≤ 1 := by
  rw [List.countP_eq_length_filter]
  rcases hfl : l.filter p with _ | ⟨a, rest⟩
  · simp
  · have hrest : rest = [] := by
      rw [List.eq_nil_iff_forall_not_mem]
      intro b hb
      have hbmem : b ∈ l.filter p := hfl ▸ List.mem_cons_of_mem a hb
      have hamem : a ∈ l.filter p := hfl ▸ List.mem_cons_self a rest
      obtain ⟨hbl, hbp⟩ := List.mem_filter.mp hbmem
      obtain ⟨hal, hap⟩ := List.mem_filter.mp hamem
      have hnodup : (a :: rest).Nodup := hfl ▸ hn.filter p
      exact (List.nodup_cons.mp hnodup).1 ((hu b hbl a hal hbp hap) ▸ hb)
    simp [hrest]

theorem getD_lt_of_sorted (edges : List ℚ) (hs : edges.Sorted (· < ·)) {a b : ℕ}
    (hab : a < b) (hb : b < edges.length) : edges.getD a 0 < edges.getD b 0 := by
  have ha : a < edges.length := lt_trans hab hb
  rw [List.getD_eq_getElem edges 0 ha, List.getD_eq_getElem edges 0 hb]
  exact List.pairwise_iff_get.mp hs ⟨a, ha⟩ ⟨b, hb⟩ hab

theorem getD_le_of_sorted (edges : List ℚ) (hs : edges.Sorted (· < ·)) {a b : ℕ}
    (hab : a ≤ b) (hb : b < edges.length) : edges.getD a 0 ≤ edges.getD b 0 := by
  rcases Nat.lt_or_eq_of_le hab with hlt | heq
  · exact le_of_lt (getD_lt_of_sorted edges hs hlt hb)
  · rw [heq]

theorem strict_count_le_one (edges : List ℚ) (hs : edges.Sorted (· < ·)) (x : ℚ) :
    strict_count edges x ≤ 1 := by
  apply countP_le_one_of_unique _ (List.nodup_range _)
  intro a ha b hb hpa hpb
  rw [List.mem_range] at ha hb
  by_contra hne
  have key : ∀ c d : ℕ, c < d → d < edges.length - 1 →
      in_interval edges c x = true → in_interval edges d x = true → False := by
    intro c d hcd hd hc' hd'
    simp only [in_interval, decide_eq_true_eq] at hc' hd'
    have hdlen : d < edges.length := by omega
    have h1 : edges.getD (c + 1) 0 ≤ edges.getD d 0 :=
      getD_le_of_sorted edges hs (by omega) hdlen
    linarith [hc'.2, hd'.1]
  rcases Nat.lt_trichotomy a b with hab | hab | hab
  · exact key a b hab hb hpa hpb
  · exact hne hab
  · exact key b a hab ha hpb hpa

theorem strict_count_eq_zero_on_boundary (edges : List ℚ) (hs : edges.Sorted (· < ·))
    (x : ℚ) (hbd : on_boundary edges x) : strict_count edges x = 0 := by
  obtain ⟨k, hk, hxk⟩ := hbd
  rw [strict_count, List.countP_eq_zero]
  intro i hi
  rw [List.mem_range] at hi
  simp only [in_interval, decide_eq_true_eq, not_and]
  intro hlow
  rcases le_or_lt k i with hki | hik
  · have : edges.getD k 0 ≤ edges.getD i 0 := getD_le_of_sorted edges hs hki (by omega)
    linarith [hxk ▸ this]
  · have : edges.getD (i + 1) 0 ≤ edges.getD k 0 := getD_le_of_sorted edges hs hik hk
    intro hup
    linarith [hxk ▸ this]

theorem strict_count_pos_of_interior (edges : List ℚ) (x : ℚ)
    (hin : strict_interior edges x = true) : 1 ≤ strict_count edges x := by
  rw [strict_interior, List.any_eq_true] at hin
  exact List.countP_pos_iff.mpr hin

theorem strict_count_eq_zero_of_not_interior (edges : List ℚ) (x : ℚ)
    (hin : strict_interior edges x = false) : strict_count edges x = 0 := by
  rw [strict_count, List.countP_eq_zero]
  intro i hi hp
  rw [strict_interior] at hin
  have : (List.range (edges.length - 1)).any (fun i => in_interval edges i x) = true :=
    List.any_eq_true.mpr ⟨i, hi, hp⟩
  rw [hin] at this
  cases this

/-- The indicator product at the heart of the sector assignment: summed
over all sector keys, the 0/1 test of a point against the (phi, eta)
interval pair factors into the product of interval counts. -/
theorem core_product (pe ee : List ℚ) (x y : ℚ) :
    ((List.range (pe.length - 1)).flatMap (fun i => (List.range (ee.length - 1)).map
       (fun j => if (in_interval ee j y && in_interval pe i x) = true then 1 else 0))).sum
    = strict_count pe x * strict_count ee y := by
  rw [sum_flatMap_nat]
  have hin : ∀ i : ℕ,
      ((List.range (ee.length - 1)).map
        (fun j => if (in_interval ee j y && in_interval pe i x) = true then 1 else 0)).sum
      = if in_interval pe i x = true then strict_count ee y else 0 := by
    intro i
    by_cases hp : in_interval pe i x = true
    · simp only [hp, Bool.and_true]
      rw [sum_map_ite_one]
      rfl
    · have hp' : in_interval pe i x = false := Bool.not_eq_true _ ▸ eq_false_of_ne_true hp
      simp [hp']
  rw [List.map_congr_left (fun i _ => hin i), sum_map_ite_const]
  rfl

theorem sum_sum_swap {ι α : Type} (is : List ι) (l : List α) (X : ι → α → ℕ) :
    (is.map (fun i => (l.map (X i)).sum)).sum = (l.map (fun a => (is.map (fun i => X i a)).sum)).sum := by
  induction is with
  | nil => simp
  | cons i it ih =>
    simp only [List.map_cons, List.sum_cons]
    rw [ih, ← sum_map_add_nat]

theorem sum_countP_double_swap {ι κ α : Type} (is : List ι) (js : List κ)
    (l : List α) (F : ι → κ → α → Bool) :
    (is.flatMap (fun i => js.map (fun j => l.countP (F i j)))).sum
    = (l.map (fun a =>
        (is.flatMap (fun i => js.map (fun j => if F i j a = true then 1 else 0))).sum)).sum := by
  rw [sum_flatMap_nat]
  have h1 : ∀ i, (js.map (fun j => l.countP (F i j))).sum
      = (l.map (fun a => js.countP (fun j => F i j a))).sum := by
    intro i
    have hswap := sum_countP_swap (js.map (F i)) l
    simp only [List.map_map, Function.comp_def] at hswap
    rw [hswap]
    apply congrArg
    apply List.map_congr_left
    intro a _
    rw [List.countP_map]
    rfl
  rw [List.map_congr_left (fun i _ => h1 i), sum_sum_swap]
  apply congrArg
  apply List.map_congr_left
  intro a _
  rw [sum_flatMap_nat]
  apply congrArg
  apply List.map_congr_left
  intro i _
  rw [sum_map_ite_one]

theorem placed_count_eq_product (atan2Q : ℚ → ℚ → ℚ) (logQ tanQ : ℚ → ℚ)
    (hits : List Hit) (pe ee : List ℚ) (h : Hit) (hh : h ∈ hits)
    (hnd : (hits.map (fun x => x.hit_id)).Nodup) :
    placed_count (split_detector_sectors atan2Q logQ tanQ hits pe ee) h =
      strict_count pe h.phi * strict_count ee (calc_eta atan2Q logQ tanQ h.r h.z) := by
  rw [← core_product]
  simp only [placed_count, split_detector_sectors, List.map_flatMap, List.map_map]
  congr 1
  apply List.flatMap_congr
  intro i _
  apply List.map_congr_left
  intro j _
  simp only [Function.comp_def]
  rw [List.countP_map, List.filter_map, List.countP_map, List.filter_filter]
  exact countP_hit_id_filter hits h hh hnd
    (fun a => in_interval ee j (calc_eta atan2Q logQ tanQ a.r a.z) && in_interval pe i a.phi)

theorem split_sector_sizes (atan2Q : ℚ → ℚ → ℚ) (logQ tanQ : ℚ → ℚ)
    (hits : List Hit) (pe ee : List ℚ) :
    ((split_detector_sectors atan2Q logQ tanQ hits pe ee).map (fun sec => sec.2.length)).sum
    = (hits.map (fun h =>
        strict_count pe h.phi * strict_count ee (calc_eta atan2Q logQ tanQ h.r h.z))).sum := by
  simp only [split_detector_sectors, List.map_flatMap, List.map_map]
  trans ((List.range (pe.length - 1)).flatMap (fun i => (List.range (ee.length - 1)).map
      (fun j => hits.countP (fun a =>
        in_interval ee j (calc_eta atan2Q logQ tanQ a.r a.z) && in_interval pe i a.phi)))).sum
  · congr 1
    apply List.flatMap_congr
    intro i _
    apply List.map_congr_left
    intro j _
    simp only [Function.comp_def]
    rw [List.length_map, List.filter_map, List.length_map, List.filter_filter,
      ← List.countP_eq_length_filter]
    simp only [Function.comp_def]
  · rw [sum_countP_double_swap]
    refine congrArg List.sum (List.map_congr_left ?_)
    intro a _
    exact core_product pe ee a.phi (calc_eta atan2Q logQ tanQ a.r a.z)

theorem product_indicator (pe ee : List ℚ) (hpe : pe.Sorted (· < ·))
    (hee : ee.Sorted (· < ·)) (x y : ℚ) :
    strict_count pe x * strict_count ee y =
      if (strict_interior pe x && strict_interior ee y) = true then 1 else 0 := by
  by_cases hx : strict_interior pe x = true
  · by_cases hy : strict_interior ee y = true
    · rw [hx, hy]
      simp only [Bool.and_self, if_true]
      rw [le_antisymm (strict_count_le_one pe hpe x) (strict_count_pos_of_interior pe x hx),
        le_antisymm (strict_count_le_one ee hee y) (strict_count_pos_of_interior ee y hy)]
    · have hy' : strict_interior ee y = false := eq_false_of_ne_true hy
      rw [strict_count_eq_zero_of_not_interior ee y hy', Nat.mul_zero, hy']
      simp
  · have hx' : strict_interior pe x = false := eq_false_of_ne_true hx
    rw [strict_count_eq_zero_of_not_interior pe x hx', Nat.zero_mul, hx']
    simp

/-- C4: with strictly ascending phi and eta boundary arrays and distinct
hit ids, `split_detector_sectors` places every input hit in at most one
sector; a hit whose phi equals any phi boundary or whose eta (recomputed
from r and z) equals any eta boundary lands in no sector; a hit strictly
inside some phi interval and some eta interval lands in exactly one
sector; and the sector sizes sum to the number of strictly-interior hits,
so the union of the sector hit sets is exactly the strictly-interior hits
with no duplication. -/
theorem split_detector_sectors_partition (atan2Q : ℚ → ℚ → ℚ) (logQ tanQ : ℚ → ℚ)
    (hits : List Hit) (phi_edges eta_edges : List ℚ)
    (hpe : phi_edges.Sorted (· < ·)) (hee : eta_edges.Sorted (· < ·))
    (hnd : (hits.map (fun x => x.hit_id)).Nodup) :
    (∀ h ∈ hits,
      placed_count (split_detector_sectors atan2Q logQ tanQ hits phi_edges eta_edges) h ≤ 1 ∧
      (on_boundary phi_edges h.phi ∨
          on_boundary eta_edges (calc_eta atan2Q logQ tanQ h.r h.z) →
        placed_count (split_detector_sectors atan2Q logQ tanQ hits phi_edges eta_edges) h = 0) ∧
      ((strict_interior phi_edges h.phi &&
          strict_interior eta_edges (calc_eta atan2Q logQ tanQ h.r h.z)) = true →
        placed_count (split_detector_sectors atan2Q logQ tanQ hits phi_edges eta_edges) h = 1)) ∧
    ((split_detector_sectors atan2Q logQ tanQ hits phi_edges eta_edges).map
        (fun sec => sec.2.length)).sum
      = hits.countP (fun h => strict_interior phi_edges h.phi &&
          strict_interior eta_edges (calc_eta atan2Q logQ tanQ h.r h.z)) := by
  constructor
  · intro h hh
    rw [placed_count_eq_product atan2Q logQ tanQ hits phi_edges eta_edges h hh hnd]
    refine ⟨?_, ?_, ?_⟩
    · simpa using Nat.mul_le_mul (strict_count_le_one _ hpe h.phi)
        (strict_count_le_one _ hee (calc_eta atan2Q logQ tanQ h.r h.z))
    · rintro (hb | hb)
      · rw [strict_count_eq_zero_on_boundary _ hpe _ hb, Nat.zero_mul]
      · rw [strict_count_eq_zero_on_boundary _ hee _ hb, Nat.mul_zero]
    · intro hin
      rw [Bool.and_eq_true] at hin
      rw [le_antisymm (strict_count_le_one _ hpe h.phi)
          (strict_count_pos_of_interior _ _ hin.1),
        le_antisymm (strict_count_le_one _ hee _)
          (strict_count_pos_of_interior _ _ hin.2)]
  · rw [split_sector_sizes, ← sum_map_ite_one]
    refine congrArg List.sum (List.map_congr_left ?_)
    intro a _
    exact product_indicator phi_edges eta_edges hpe hee a.phi
      (calc_eta atan2Q logQ tanQ a.r a.z)

/-- Concrete stand-in for `np.arctan2` in witnesses. -/
def at2W : ℚ → ℚ → ℚ := fun _ z => z

/-- Concrete stand-in for `np.log` in witnesses. -/
def logW : ℚ → ℚ := fun q => q

/-- Concrete stand-in for `np.tan` in witnesses. -/
def tanW : ℚ → ℚ := fun q => q

/-- Concrete strictly-interior hit used by the sector-partition witness. -/
def hitC4 : Hit := { index := 0, hit_id := 7, r := 1, phi := 1, z := 0, layer := 0, particle_id := 1 }

/-- Witness for `split_detector_sectors_partition` on one hit with
boundaries phi = [-4, 0, 4] and eta = [-10, 10]. -/
theorem split_detector_sectors_partition_witness :
    (([(-4 : ℚ), 0, 4].Sorted (· < ·)) ∧ ([(-10 : ℚ), 10].Sorted (· < ·)) ∧
      (([hitC4].map (fun x => x.hit_id)).Nodup)) ∧
    ((∀ h ∈ [hitC4],
      placed_count (split_detector_sectors at2W logW tanW [hitC4] [(-4 : ℚ), 0, 4] [(-10 : ℚ), 10]) h ≤ 1 ∧
      (on_boundary [(-4 : ℚ), 0, 4] h.phi ∨
          on_boundary [(-10 : ℚ), 10] (calc_eta at2W logW tanW h.r h.z) →
        placed_count (split_detector_sectors at2W logW tanW [hitC4] [(-4 : ℚ), 0, 4] [(-10 : ℚ), 10]) h = 0) ∧
      ((strict_interior [(-4 : ℚ), 0, 4] h.phi &&
          strict_interior [(-10 : ℚ), 10] (calc_eta at2W logW tanW h.r h.z)) = true →
        placed_count (split_detector_sectors at2W logW tanW [hitC4] [(-4 : ℚ), 0, 4] [(-10 : ℚ), 10]) h = 1)) ∧
    ((split_detector_sectors at2W logW tanW [hitC4] [(-4 : ℚ), 0, 4] [(-10 : ℚ), 10]).map
        (fun sec => sec.2.length)).sum
      = [hitC4].countP (fun h => strict_interior [(-4 : ℚ), 0, 4] h.phi &&
          strict_interior [(-10 : ℚ), 10] (calc_eta at2W logW tanW h.r h.z))) :=
  ⟨⟨by norm_num [List.sorted_cons], by norm_num [List.sorted_cons], by decide⟩,
   split_detector_sectors_partition at2W logW tanW [hitC4] [(-4 : ℚ), 0, 4] [(-10 : ℚ), 10]
     (by norm_num [List.sorted_cons]) (by norm_num [List.sorted_cons]) (by decide)⟩

/-- Per-sector entry of the `sector_stats` dictionary of `graph_summary`. -/
structure SectorStats where
  eta_range : ℚ × ℚ
  phi_range : ℚ × ℚ
  n_nodes : ℕ
  n_edges : ℕ
  purity : ℚ
  efficiency : ℚ
deriving DecidableEq, Repr

/-- Return record of `graph_summary`.  The source also accumulates a
`total_false` count of zero labels, which does not appear in the returned
dictionary. -/
structure SummaryStats where
  n_nodes : ℕ
  n_edges : ℕ
  efficiency : ℚ
  purity : ℚ
  boundary_fraction : ℚ
  sector_stats : List (ℕ × SectorStats)
deriving DecidableEq, Repr

/-- The `div` helper of `graph_summary` (line 421): `float(a)/b if b else
0`, i.e. a quotient that is defined to be zero on a zero denominator. -/
def div0 (a b : ℚ) : ℚ := if b ≠ 0 then a / b else 0

/-- Sum of the values of an (id, count) dictionary —
`np.sum(list(d.values()))`. -/
def dict_vals_sum (d : List (ℕ × ℕ)) : ℕ := (d.map (fun q => q.2)).sum

/-- The signed per-sector true-edge count `n_true = np.sum(y) -
n_incorrect` of `graph_summary` (line 438): an integer that may be
negative, with no clamping at zero. -/
def n_true_of (g : Graph) : ℤ := (g.y.countP id : ℤ) - (g.n_incorrect : ℤ)

/-- One entry of `sector_stats`: ranges from `sector_info`, node and edge
counts, purity `n_true/n_edges` and efficiency `n_true/n_track_segs`, both
`div`-quotients. -/
def sector_stats_entry (n_track_segs_per_s : (ℕ × ℕ) → List (ℕ × ℕ))
    (sector_info : (ℕ × ℕ) → (ℚ × ℚ) × (ℚ × ℚ)) (p : ℕ × Graph) : ℕ × SectorStats :=
  (p.1,
   { eta_range := (sector_info p.2.s).1,
     phi_range := (sector_info p.2.s).2,
     n_nodes := p.2.n_nodes,
     n_edges := p.2.y.length,
     purity := div0 (n_true_of p.2 : ℚ) (p.2.y.length : ℚ),
     efficiency := div0 (n_true_of p.2 : ℚ) (dict_vals_sum (n_track_segs_per_s p.2.s) : ℚ) })

/-- Embedding of `graph_summary(evtid, sectors, particle_properties,
sector_info)`.  Inputs: the per-sector graphs, the unsectored
`n_track_segs` dictionary (particle id to expected segments), the
per-sector `n_track_segs_per_s` dictionaries, and the `sector_info` range
map.  Per sector, `n_true = sum(y) - n_incorrect` (see `n_true_of`),
`n_edges = len(y)`; per event, totals are summed across sectors and the
boundary fraction compares unsectored and sectored expected segments. -/
def graph_summary (sectors : List Graph) (n_track_segs : List (ℕ × ℕ))
    (n_track_segs_per_s : (ℕ × ℕ) → List (ℕ × ℕ))
    (sector_info : (ℕ × ℕ) → (ℚ × ℚ) × (ℚ × ℚ)) : SummaryStats :=
  let total_track_segs : ℕ := dict_vals_sum n_track_segs
  let total_track_segs_sectored : ℕ :=
    (sectors.map (fun g => dict_vals_sum (n_track_segs_per_s g.s))).sum
  let total_nodes : ℕ := (sectors.map (fun g => g.n_nodes)).sum
  let total_edges : ℕ := (sectors.map (fun g => g.y.length)).sum
  let total_true : ℤ := (sectors.map n_true_of).sum
  { n_nodes := total_nodes,
    n_edges := total_edges,
    efficiency := div0 (total_true : ℚ) (total_track_segs : ℚ),
    purity := div0 (total_true : ℚ) (total_edges : ℚ),
    boundary_fraction :=
      div0 ((total_track_segs : ℚ) - (total_track_segs_sectored : ℚ)) (total_track_segs : ℚ),
    sector_stats := sectors.enum.map (sector_stats_entry n_track_segs_per_s sector_info) }

/-- C5: in `graph_summary` each sector's true-edge count is the sum of the
sector's 0/1 labels minus its `n_incorrect` correction, as a plain integer
with no clamping at zero — when the correction exceeds the label sum and
the sector has edges, the reported purity is negative — and the event
boundary fraction is (unsectored expected segments − sum of per-sector
expected segments) / unsectored expected segments. -/
theorem graph_summary_sector_true_count (sectors : List Graph)
    (n_track_segs : List (ℕ × ℕ)) (n_track_segs_per_s : (ℕ × ℕ) → List (ℕ × ℕ))
    (sector_info : (ℕ × ℕ) → (ℚ × ℚ) × (ℚ × ℚ)) (i : ℕ) (g : Graph)
    (hg : (i, g) ∈ sectors.enum) :
    ∃ st, (i, st) ∈ (graph_summary sectors n_track_segs n_track_segs_per_s sector_info).sector_stats ∧
      st.purity = div0 (((g.y.countP id : ℤ) - (g.n_incorrect : ℤ) : ℤ) : ℚ) (g.y.length : ℚ) ∧
      (g.y.length ≠ 0 →
        st.purity = (((g.y.countP id : ℤ) - (g.n_incorrect : ℤ) : ℤ) : ℚ) / (g.y.length : ℚ)) ∧
      (dict_vals_sum (n_track_segs_per_s g.s) ≠ 0 →
        st.efficiency = (((g.y.countP id : ℤ) - (g.n_incorrect : ℤ) : ℤ) : ℚ) /
          (dict_vals_sum (n_track_segs_per_s g.s) : ℚ)) ∧
      (g.y.length ≠ 0 → g.y.countP id < g.n_incorrect → st.purity < 0) ∧
      (dict_vals_sum n_track_segs ≠ 0 →
        (graph_summary sectors n_track_segs n_track_segs_per_s sector_info).boundary_fraction =
          ((dict_vals_sum n_track_segs : ℚ) -
            ((sectors.map (fun g2 => dict_vals_sum (n_track_segs_per_s g2.s))).sum : ℚ)) /
          (dict_vals_sum n_track_segs : ℚ)) := by
  refine ⟨(sector_stats_entry n_track_segs_per_s sector_info (i, g)).2, ?_, rfl, ?_, ?_, ?_, ?_⟩
  · exact List.mem_map_of_mem (sector_stats_entry n_track_segs_per_s sector_info) hg
  · intro hne
    show div0 _ _ = _
    rw [div0, if_pos (by exact_mod_cast hne)]
    rfl
  · intro hne
    show div0 _ _ = _
    rw [div0, if_pos (by exact_mod_cast hne)]
    rfl
  · intro hne hlt
    have hnum : ((n_true_of g : ℤ) : ℚ) < 0 := by
      have h1 : (n_true_of g : ℤ) < 0 := by
        rw [n_true_of]
        omega
      exact_mod_cast h1
    have hden : (0 : ℚ) < (g.y.length : ℚ) := by
      have h2 : 0 < g.y.length := Nat.pos_of_ne_zero hne
      exact_mod_cast h2
    show div0 _ _ < 0
    rw [div0, if_pos (ne_of_gt hden)]
    exact div_neg_of_neg_of_pos hnum hden
  · intro hne
    show div0 _ _ = _
    rw [div0, if_pos (by exact_mod_cast hne)]

/-- C6: every ratio of `graph_summary` is zero on a zero denominator: the
event efficiency and boundary fraction when no track segments are
expected, the event purity when there are no edges, and per sector the
purity when the sector has no edges and the efficiency when the sector
expects no segments. -/
theorem graph_summary_zero_denominators (sectors : List Graph)
    (n_track_segs : List (ℕ × ℕ)) (n_track_segs_per_s : (ℕ × ℕ) → List (ℕ × ℕ))
    (sector_info : (ℕ × ℕ) → (ℚ × ℚ) × (ℚ × ℚ)) :
    (dict_vals_sum n_track_segs = 0 →
      (graph_summary sectors n_track_segs n_track_segs_per_s sector_info).efficiency = 0 ∧
      (graph_summary sectors n_track_segs n_track_segs_per_s sector_info).boundary_fraction = 0) ∧
    ((sectors.map (fun g => g.y.length)).sum = 0 →
      (graph_summary sectors n_track_segs n_track_segs_per_s sector_info).purity = 0) ∧
    (∀ i g, (i, g) ∈ sectors.enum →
      ∃ st, (i, st) ∈ (graph_summary sectors n_track_segs n_track_segs_per_s sector_info).sector_stats ∧
        (g.y.length = 0 → st.purity = 0) ∧
        (dict_vals_sum (n_track_segs_per_s g.s) = 0 → st.efficiency = 0)) := by
  refine ⟨?_, ?_, ?_⟩
  · intro hz
    constructor
    · show div0 _ _ = 0
      rw [div0, if_neg (by simp [hz])]
    · show div0 _ _ = 0
      rw [div0, if_neg (by simp [hz])]
  · intro hz
    show div0 _ _ = 0
    rw [div0, if_neg (by simp [hz])]
  · intro i g hg
    refine ⟨(sector_stats_entry n_track_segs_per_s sector_info (i, g)).2, ?_, ?_, ?_⟩
    · exact List.mem_map_of_mem (sector_stats_entry n_track_segs_per_s sector_info) hg
    · intro hz
      show div0 _ _ = 0
      rw [div0, if_neg (by simp [hz])]
    · intro hz
      show div0 _ _ = 0
      rw [div0, if_neg (by simp [hz])]

/-- Sector graph with one true-labeled edge but a truth correction of 2,
driving its purity negative. -/
def gNeg : Graph := { n_nodes := 1, edges := [], y := [true], s := (0, 0), n_incorrect := 2 }

/-- Empty sector graph. -/
def gEmpty : Graph := { n_nodes := 0, edges := [], y := [], s := (0, 0), n_incorrect := 0 }

/-- Witness for `graph_summary_sector_true_count`: a sector with label sum
1 and correction 2. -/
theorem graph_summary_sector_true_count_witness :
    ((0, gNeg) ∈ [gNeg].enum) ∧
    (∃ st, (0, st) ∈ (graph_summary [gNeg] [(1, 3)] (fun _ => [(1, 2)])
        (fun _ => ((0, 0), (0, 0)))).sector_stats ∧
      st.purity = div0 (((gNeg.y.countP id : ℤ) - (gNeg.n_incorrect : ℤ) : ℤ) : ℚ) (gNeg.y.length : ℚ) ∧
      (gNeg.y.length ≠ 0 →
        st.purity = (((gNeg.y.countP id : ℤ) - (gNeg.n_incorrect : ℤ) : ℤ) : ℚ) / (gNeg.y.length : ℚ)) ∧
      (dict_vals_sum ((fun _ => [((1 : ℕ), (2 : ℕ))]) gNeg.s) ≠ 0 →
        st.efficiency = (((gNeg.y.countP id : ℤ) - (gNeg.n_incorrect : ℤ) : ℤ) : ℚ) /
          (dict_vals_sum ((fun _ => [((1 : ℕ), (2 : ℕ))]) gNeg.s) : ℚ)) ∧
      (gNeg.y.length ≠ 0 → gNeg.y.countP id < gNeg.n_incorrect → st.purity < 0) ∧
      (dict_vals_sum [(1, 3)] ≠ 0 →
        (graph_summary [gNeg] [(1, 3)] (fun _ => [(1, 2)])
            (fun _ => ((0, 0), (0, 0)))).boundary_fraction =
          ((dict_vals_sum [(1, 3)] : ℚ) -
            (([gNeg].map (fun g2 => dict_vals_sum ((fun _ => [((1 : ℕ), (2 : ℕ))]) g2.s))).sum : ℚ)) /
          (dict_vals_sum [(1, 3)] : ℚ))) :=
  ⟨by decide,
   graph_summary_sector_true_count [gNeg] [(1, 3)] (fun _ => [(1, 2)])
     (fun _ => ((0, 0), (0, 0))) 0 gNeg (by decide)⟩

/-- Witness for `graph_summary_zero_denominators` on an empty sector and
empty track-segment dictionaries. -/
theorem graph_summary_zero_denominators_witness :
    ((dict_vals_sum [] = 0 →
      (graph_summary [gEmpty] [] (fun _ => []) (fun _ => ((0, 0), (0, 0)))).efficiency = 0 ∧
      (graph_summary [gEmpty] [] (fun _ => []) (fun _ => ((0, 0), (0, 0)))).boundary_fraction = 0) ∧
    (([gEmpty].map (fun g => g.y.length)).sum = 0 →
      (graph_summary [gEmpty] [] (fun _ => []) (fun _ => ((0, 0), (0, 0)))).purity = 0) ∧
    (∀ i g, (i, g) ∈ [gEmpty].enum →
      ∃ st, (i, st) ∈ (graph_summary [gEmpty] [] (fun _ => [])
          (fun _ => ((0, 0), (0, 0)))).sector_stats ∧
        (g.y.length = 0 → st.purity = 0) ∧
        (dict_vals_sum ((fun _ => ([] : List (ℕ × ℕ))) g.s) = 0 → st.efficiency = 0))) :=
  graph_summary_zero_denominators [gEmpty] [] (fun _ => []) (fun _ => ((0, 0), (0, 0)))

/-- Row of the pandas hits table across the stages of `select_hits`.  The
identifier columns `hit_id`, `z`, `module_id` are present throughout; the
other columns are `Option`s, `none` meaning the column is absent at that
stage (pandas raises a `KeyError` when an absent column is consumed, which
`select_hits` models by returning `none`). -/
structure HRow where
  hit_id : ℕ
  z : ℚ
  module_id : ℕ
  x : Option ℚ := none
  y : Option ℚ := none
  volume_id : Option ℕ := none
  layer_id : Option ℕ := none
  r : Option ℚ := none
  phi : Option ℚ := none
  eta : Option ℚ := none
  layer : Option ℕ := none
  particle_id : Option ℕ := none
  pt : Option ℚ := none
  eta_pt : Option ℚ := none
deriving DecidableEq, Repr

/-- Row of the truth table (`hit_id`, `particle_id`, with `pt`/`eta_pt`
acquired by the merge with the particles table). -/
structure TRow where
  hit_id : ℕ
  particle_id : ℕ
  pt : Option ℚ := none
  eta_pt : Option ℚ := none
deriving DecidableEq, Repr

/-- Row of the particles table. -/
structure PRow where
  particle_id : ℕ
  px : ℚ := 0
  py : ℚ := 0
  pz : ℚ := 0
  pt : Option ℚ := none
  eta_pt : Option ℚ := none
deriving DecidableEq, Repr

/-- The fixed ordered (volume_id, layer_id) list of `select_hits`: four
barrel layers, extended by fourteen endcap layers when `endcaps` is set;
position in this list is the dense layer index. -/
def vlids (endcaps : Bool) : List (ℕ × ℕ) :=
  [(8, 2), (8, 4), (8, 6), (8, 8)] ++
    (if endcaps then
      [(7, 14), (7, 12), (7, 10), (7, 8), (7, 6), (7, 4), (7, 2),
       (9, 2), (9, 4), (9, 6), (9, 8), (9, 10), (9, 12), (9, 14)]
    else [])

/-- Sorted distinct (particle_id, layer) keys, as iterated by
`groupby(['particle_id', 'layer'])`. -/
def np_unique_pairs (l : List (ℕ × ℕ)) : List (ℕ × ℕ) :=
  List.insertionSort (fun a b => a.1 < b.1 ∨ (a.1 = b.1 ∧ a.2 ≤ b.2)) l.dedup

/-- The duplicate-removal step of `select_hits` (lines 258–263): noise is
set aside, and for every (particle_id, layer) group of the remaining hits
only `particle_hits.loc[groupby(['particle_id','layer']).r.idxmin()]`
survives — the first row of the group attaining the minimal radius —
iterated over the sorted group keys; the noise rows are appended back. -/
def remove_duplicates_step (hits : List HRow) : List HRow :=
  let noise_hits := hits.filter (fun h => h.particle_id.getD 0 == 0)
  let particle_hits := hits.filter (fun h => h.particle_id.getD 0 != 0)
  let keys := np_unique_pairs (particle_hits.map (fun h => (h.particle_id.getD 0, h.layer.getD 0)))
  (keys.flatMap (fun k =>
    let g := particle_hits.filter (fun h =>
      h.particle_id.getD 0 == k.1 && h.layer.getD 0 == k.2)
    (g.find? (fun h => g.all (fun h2 => decide (h.r.getD 0 ≤ h2.r.getD 0)))).toList))
  ++ noise_hits

/-- Stage of `select_hits` (lines 230–232): group hits by (volume_id,
layer_id), take the group of each vlid in order and assign the dense layer
index. -/
def layered_hits (endcaps : Bool) (hits : List HRow) : List HRow :=
  (vlids endcaps).enum.flatMap (fun ivl =>
    (hits.filter (fun h => h.volume_id == some ivl.2.1 && h.layer_id == some ivl.2.2)).map
      (fun h => { h with layer := some ivl.1 }))

/-- Stage of `select_hits` (lines 235–236): compute particle
`pt = sqrt(px^2 + py^2)` and `eta_pt = calc_eta(pt, pz)`. -/
def particles_with_pt (sqrtQ : ℚ → ℚ) (atan2Q : ℚ → ℚ → ℚ) (logQ tanQ : ℚ → ℚ)
    (particles : List PRow) : List PRow :=
  particles.map (fun p =>
    let ptv := sqrtQ (p.px ^ 2 + p.py ^ 2)
    { p with pt := some ptv, eta_pt := some (calc_eta atan2Q logQ tanQ ptv p.pz) })

/-- Stage of `select_hits` (lines 242–243): inner merge of the truth table
with the pt-filtered particles on `particle_id`. -/
def truth_with_pt (truth : List TRow) (particles2 : List PRow) : List TRow :=
  truth.flatMap (fun t =>
    (particles2.filter (fun p => p.particle_id == t.particle_id)).map
      (fun p => ({ hit_id := t.hit_id, particle_id := t.particle_id,
                   pt := p.pt, eta_pt := p.eta_pt } : TRow)))

/-- Stage of `select_hits` (lines 250–252): derived hit columns
`r = sqrt(x^2 + y^2)`, `phi = arctan2(y, x)`, `eta = calc_eta(r, z)`. -/
def hits_with_derived (sqrtQ : ℚ → ℚ) (atan2Q : ℚ → ℚ → ℚ) (logQ tanQ : ℚ → ℚ)
    (hits1 : List HRow) : List HRow :=
  hits1.map (fun h =>
    let rv := sqrtQ ((h.x.getD 0) ^ 2 + (h.y.getD 0) ^ 2)
    { h with r := some rv, phi := some (atan2Q (h.y.getD 0) (h.x.getD 0)),
             eta := some (calc_eta atan2Q logQ tanQ rv h.z) })

/-- Stage of `select_hits` (line 255): keep only the columns `hit_id, r,
phi, eta, z, layer, module_id` — in particular `x`, `y`, `volume_id` and
`layer_id` are dropped. -/
def hits_selected_columns (hits2 : List HRow) : List HRow :=
  hits2.map (fun h =>
    ({ hit_id := h.hit_id, z := h.z, module_id := h.module_id,
       r := h.r, phi := h.phi, eta := h.eta, layer := h.layer } : HRow))

/-- Stage of `select_hits` (line 256): inner merge of the hits with the
truth table on `hit_id`, acquiring `particle_id`, `pt`, `eta_pt`. -/
def hits_truth_merged (hits3 : List HRow) (truth2 : List TRow) : List HRow :=
  hits3.flatMap (fun h =>
    (truth2.filter (fun t => t.hit_id == h.hit_id)).map
      (fun t => { h with particle_id := some t.particle_id, pt := t.pt, eta_pt := t.eta_pt }))

/-- The dense particle-id relabelling of `select_hits` (lines 267–268):
the dict comprehension `{p: i+1 for i, p in enumerate(keep_pids)}` keeps
the last index of a repeated id, and `map[0] = 0` overrides afterwards;
modelled as an association-list lookup whose default is never read (every
id fed to the map is a key). -/
def pid_map_of (keep_pids : List ℕ) : ℕ → ℕ := fun p =>
  (((((0, 0) : ℕ × ℕ) :: (keep_pids.enum.map (fun q => (q.2, q.1 + 1))).reverse)).lookup p).getD 0

/-- Embedding of `select_hits(hits, truth, particles, ...)`: vlid layer
remapping (a `KeyError` — modelled as `none` — when the volume/layer
columns are absent or some vlid group is empty), particle pt threshold,
truth join with optional noise, derived r/phi/eta columns, column
selection, merge, optional duplicate removal, and dense particle-id
relabelling.  The stages are the named functions above. -/
def select_hits (sqrtQ : ℚ → ℚ) (atan2Q : ℚ → ℚ → ℚ) (logQ tanQ : ℚ → ℚ)
    (hits : List HRow) (truth : List TRow) (particles : List PRow)
    (pt_min : ℚ) (endcaps remove_noise remove_duplicates : Bool) :
    Option (List HRow × List PRow) :=
  if hits.all (fun h => h.volume_id.isSome && h.layer_id.isSome) then
    if (vlids endcaps).all (fun vl =>
        hits.any (fun h => h.volume_id == some vl.1 && h.layer_id == some vl.2)) then
      let hits1 := layered_hits endcaps hits
      let particles2 := (particles_with_pt sqrtQ atan2Q logQ tanQ particles).filter
        (fun p => decide (p.pt.getD 0 > pt_min))
      let truth_noise := (truth.filter (fun t => t.particle_id == 0)).map
        (fun t => ({ hit_id := t.hit_id, particle_id := t.particle_id, pt := some 0 } : TRow))
      let truth2 := if remove_noise then truth_with_pt truth particles2
        else truth_with_pt truth particles2 ++ truth_noise
      if hits1.all (fun h => h.x.isSome && h.y.isSome) then
        let hits4 := hits_truth_merged
          (hits_selected_columns (hits_with_derived sqrtQ atan2Q logQ tanQ hits1)) truth2
        let hits5 := if remove_duplicates then remove_duplicates_step hits4 else hits4
        let keep := particles2.filter (fun p =>
          (hits5.map (fun h => h.particle_id.getD 0)).contains p.particle_id)
        let pm := pid_map_of (keep.map (fun p => p.particle_id))
        some
          (hits5.map (fun h => { h with particle_id := some (pm (h.particle_id.getD 0)) }),
           keep.map (fun p => { p with particle_id := pm p.particle_id }))
      else none
    else none
  else none

theorem np_unique_pairs_nodup (l : List (ℕ × ℕ)) : (np_unique_pairs l).Nodup :=
  (List.perm_insertionSort _ _).symm.nodup (List.nodup_dedup l)

theorem mem_np_unique_pairs (l : List (ℕ × ℕ)) (k : ℕ × ℕ) :
    k ∈ np_unique_pairs l ↔ k ∈ l :=
  (List.perm_insertionSort _ _).mem_iff.trans List.mem_dedup

theorem exists_min_r : ∀ (g : List HRow), g ≠ [] →
    ∃ h ∈ g, ∀ h2 ∈ g, h.r.getD 0 ≤ h2.r.getD 0
  | [], hne => absurd rfl hne
  | [h], _ => ⟨h, List.mem_singleton_self h, by
      intro h2 hh2
      rw [List.mem_singleton] at hh2
      rw [hh2]⟩
  | h :: h2 :: t, _ => by
    obtain ⟨m, hm, hmin⟩ := exists_min_r (h2 :: t) (by simp)
    by_cases hle : h.r.getD 0 ≤ m.r.getD 0
    · refine ⟨h, List.mem_cons_self _ _, ?_⟩
      intro h3 hh3
      rcases List.mem_cons.mp hh3 with rfl | hh3
      · exact le_refl _
      · exact le_trans hle (hmin h3 hh3)
    · refine ⟨m, List.mem_cons_of_mem _ hm, ?_⟩
      intro h3 hh3
      rcases List.mem_cons.mp hh3 with rfl | hh3
      · exact le_of_lt (lt_of_not_ge hle)
      · exact hmin h3 hh3

theorem mem_of_mem_remove_duplicates (hits : List HRow) (h : HRow)
    (hm : h ∈ remove_duplicates_step hits) : h ∈ hits := by
  simp only [remove_duplicates_step] at hm
  rcases List.mem_append.mp hm with hm | hm
  · obtain ⟨k, _, hk⟩ := List.mem_flatMap.mp hm
    rw [Option.mem_toList, Option.mem_def] at hk
    have hg := List.mem_of_find?_eq_some hk
    exact (List.mem_filter.mp (List.mem_filter.mp hg).1).1
  · exact (List.mem_filter.mp hm).1

theorem remove_duplicates_noise (hits : List HRow) :
    (remove_duplicates_step hits).filter (fun h => h.particle_id.getD 0 == 0) =
      hits.filter (fun h => h.particle_id.getD 0 == 0) := by
  simp only [remove_duplicates_step]
  rw [List.filter_append]
  have h1 : ((np_unique_pairs ((hits.filter (fun h => h.particle_id.getD 0 != 0)).map
        (fun h => (h.particle_id.getD 0, h.layer.getD 0)))).flatMap (fun k =>
      (((hits.filter (fun h => h.particle_id.getD 0 != 0)).filter (fun h =>
          h.particle_id.getD 0 == k.1 && h.layer.getD 0 == k.2)).find? (fun h =>
        ((hits.filter (fun h => h.particle_id.getD 0 != 0)).filter (fun h =>
          h.particle_id.getD 0 == k.1 && h.layer.getD 0 == k.2)).all (fun h2 =>
            decide (h.r.getD 0 ≤ h2.r.getD 0)))).toList)).filter
      (fun h => h.particle_id.getD 0 == 0) = [] := by
    rw [List.filter_eq_nil_iff]
    intro a ha
    obtain ⟨k, _, hak⟩ := List.mem_flatMap.mp ha
    rw [Option.mem_toList, Option.mem_def] at hak
    have hg := List.mem_of_find?_eq_some hak
    have hne := (List.mem_filter.mp (List.mem_filter.mp hg).1).2
    simp only [bne_iff_ne, ne_eq] at hne
    simp only [beq_iff_eq]
    exact hne
  rw [h1, List.nil_append]
  exact List.filter_eq_self.mpr (fun a ha => (List.mem_filter.mp ha).2)

theorem flatMap_eq_single {α β : Type} (keys : List α) (f : α → List β)
    (k0 : α) (hnd : keys.Nodup) (hk0 : k0 ∈ keys)
    (hz : ∀ k ∈ keys, k ≠ k0 → f k = []) : keys.flatMap f = f k0 := by
  induction keys with
  | nil => cases hk0
  | cons a t ih =>
    rw [List.flatMap_cons]
    rcases List.mem_cons.mp hk0 with rfl | hk0t
    · have ht : t.flatMap f = [] := List.flatMap_eq_nil_iff.mpr
        (fun k hk => hz k (List.mem_cons_of_mem _ hk)
          (fun he => (List.nodup_cons.mp hnd).1 (he ▸ hk)))
      rw [ht, List.append_nil]
    · have ha : f a = [] := hz a (List.mem_cons_self _ _)
        (fun he => (List.nodup_cons.mp hnd).1 (he ▸ hk0t))
      rw [ha, List.nil_append]
      exact ih (List.nodup_cons.mp hnd).2 hk0t
        (fun k hk hne => hz k (List.mem_cons_of_mem _ hk) hne)

theorem particle_filter_group (hits : List HRow) (p l0 : ℕ) (hp : p ≠ 0) :
    (hits.filter (fun h => h.particle_id.getD 0 != 0)).filter
      (fun h => h.particle_id.getD 0 == p && h.layer.getD 0 == l0) =
    hits.filter (fun h => h.particle_id.getD 0 == p && h.layer.getD 0 == l0) := by
  rw [List.filter_filter]
  apply List.filter_congr
  intro a _
  by_cases hc : a.particle_id.getD 0 = p
  · have hbne : (a.particle_id.getD 0 != 0) = true := by
      simp [bne_iff_ne, hc, hp]
    rw [hbne, Bool.and_true]
  · have hbeq : (a.particle_id.getD 0 == p) = false := by
      simp [hc]
    rw [hbeq, Bool.false_and, Bool.false_and]

theorem remove_duplicates_group_spec (hits : List HRow) (p l0 : ℕ) (hp : p ≠ 0)
    (hne : hits.filter (fun h => h.particle_id.getD 0 == p && h.layer.getD 0 == l0) ≠ []) :
    ∃ h0,
      (remove_duplicates_step hits).filter
        (fun h => h.particle_id.getD 0 == p && h.layer.getD 0 == l0) = [h0] ∧
      h0 ∈ hits.filter (fun h => h.particle_id.getD 0 == p && h.layer.getD 0 == l0) ∧
      ∀ h2 ∈ hits.filter (fun h => h.particle_id.getD 0 == p && h.layer.getD 0 == l0),
        h0.r.getD 0 ≤ h2.r.getD 0 := by
  have hgroup := particle_filter_group hits p l0 hp
  obtain ⟨m, hm, hmin⟩ := exists_min_r _ hne
  have hfind : ∃ h0, (hits.filter (fun h => h.particle_id.getD 0 == p && h.layer.getD 0 == l0)).find?
      (fun h => (hits.filter (fun h => h.particle_id.getD 0 == p && h.layer.getD 0 == l0)).all
        (fun h2 => decide (h.r.getD 0 ≤ h2.r.getD 0))) = some h0 := by
    rw [← Option.isSome_iff_exists, List.find?_isSome]
    refine ⟨m, hm, ?_⟩
    rw [List.all_eq_true]
    intro h2 hh2
    exact decide_eq_true_eq.mpr (hmin h2 hh2)
  obtain ⟨h0, hh0⟩ := hfind
  have hh0mem := List.mem_of_find?_eq_some hh0
  have hh0min : ∀ h2 ∈ hits.filter (fun h => h.particle_id.getD 0 == p && h.layer.getD 0 == l0),
      h0.r.getD 0 ≤ h2.r.getD 0 := by
    have := List.find?_some hh0
    rw [List.all_eq_true] at this
    intro h2 hh2
    exact decide_eq_true_eq.mp (this h2 hh2)
  have hh0cond := (List.mem_filter.mp hh0mem).2
  refine ⟨h0, ?_, hh0mem, hh0min⟩
  simp only [remove_duplicates_step]
  rw [List.filter_append]
  have hnoise : (hits.filter (fun h => h.particle_id.getD 0 == 0)).filter
      (fun h => h.particle_id.getD 0 == p && h.layer.getD 0 == l0) = [] := by
    rw [List.filter_eq_nil_iff]
    intro a ha
    have h0a := (List.mem_filter.mp ha).2
    simp only [beq_iff_eq] at h0a
    simp only [Bool.and_eq_true, beq_iff_eq, not_and]
    intro hpa
    exact absurd (h0a ▸ hpa) (Ne.symm hp)
  rw [List.filter_flatMap, hnoise, List.append_nil]
  have hkey : (p, l0) ∈ np_unique_pairs ((hits.filter (fun h => h.particle_id.getD 0 != 0)).map
      (fun h => (h.particle_id.getD 0, h.layer.getD 0))) := by
    rw [mem_np_unique_pairs]
    obtain ⟨a, ha⟩ := List.exists_mem_of_ne_nil _ hne
    have hacond := (List.mem_filter.mp ha).2
    simp only [Bool.and_eq_true, beq_iff_eq] at hacond
    have haPH : a ∈ hits.filter (fun h => h.particle_id.getD 0 != 0) := by
      rw [List.mem_filter]
      refine ⟨(List.mem_filter.mp ha).1, ?_⟩
      simp [bne_iff_ne, hacond.1, hp]
    refine List.mem_map.mpr ⟨a, haPH, ?_⟩
    rw [hacond.1, hacond.2]
  rw [flatMap_eq_single _ _ ((p, l0) : ℕ × ℕ) (np_unique_pairs_nodup _) hkey ?_]
  · rw [hgroup, hh0]
    simp [hh0cond]
  · intro k hk hkne
    rw [List.filter_eq_nil_iff]
    intro a ha
    rw [Option.mem_toList, Option.mem_def] at ha
    have hag := List.mem_of_find?_eq_some ha
    have hak := (List.mem_filter.mp hag).2
    simp only [Bool.and_eq_true, beq_iff_eq] at hak
    simp only [Bool.and_eq_true, beq_iff_eq, not_and]
    intro hap hal
    exact hkne (Prod.ext_iff.mpr ⟨by rw [← hak.1, hap], by rw [← hak.2, hal]⟩)

/-- C8: when `remove_duplicates` is set, for every (non-noise particle,
layer) group of hits reaching the duplicate-removal step exactly one hit
survives, namely one attaining the minimal radius of the group, and noise
hits pass through the step untouched. -/
theorem remove_duplicates_keeps_min_radius (hits : List HRow) (p l0 : ℕ) (hp : p ≠ 0)
    (hne : hits.filter (fun h => h.particle_id.getD 0 == p && h.layer.getD 0 == l0) ≠ []) :
    (∃ h0,
      (remove_duplicates_step hits).filter
        (fun h => h.particle_id.getD 0 == p && h.layer.getD 0 == l0) = [h0] ∧
      h0 ∈ hits.filter (fun h => h.particle_id.getD 0 == p && h.layer.getD 0 == l0) ∧
      ∀ h2 ∈ hits.filter (fun h => h.particle_id.getD 0 == p && h.layer.getD 0 == l0),
        h0.r.getD 0 ≤ h2.r.getD 0) ∧
    (remove_duplicates_step hits).filter (fun h => h.particle_id.getD 0 == 0) =
      hits.filter (fun h => h.particle_id.getD 0 == 0) :=
  ⟨remove_duplicates_group_spec hits p l0 hp hne, remove_duplicates_noise hits⟩

theorem remove_duplicates_group_le_one (hits : List HRow) (p l0 : ℕ) (hp : p ≠ 0) :
    ((remove_duplicates_step hits).filter
      (fun h => h.particle_id.getD 0 == p && h.layer.getD 0 == l0)).length ≤ 1 := by
  by_cases hne : hits.filter (fun h => h.particle_id.getD 0 == p && h.layer.getD 0 == l0) = []
  · have hout : (remove_duplicates_step hits).filter
        (fun h => h.particle_id.getD 0 == p && h.layer.getD 0 == l0) = [] := by
      rw [List.filter_eq_nil_iff]
      intro a ha hcond
      have hah := mem_of_mem_remove_duplicates hits a ha
      have hmem : a ∈ hits.filter
          (fun h => h.particle_id.getD 0 == p && h.layer.getD 0 == l0) :=
        List.mem_filter.mpr ⟨hah, hcond⟩
      rw [hne] at hmem
      cases hmem
    rw [hout]
    simp
  · obtain ⟨h0, hfo, _, _⟩ := remove_duplicates_group_spec hits p l0 hp hne
    rw [hfo]
    exact le_refl 1

/-- Duplicate hit of particle 1 in layer 0 at radius 10. -/
def h10 : HRow := { hit_id := 21, z := 0, module_id := 0, r := some 10, layer := some 0, particle_id := some 1 }

/-- Duplicate hit of particle 1 in layer 0 at radius 20. -/
def h20 : HRow := { hit_id := 22, z := 0, module_id := 0, r := some 20, layer := some 0, particle_id := some 1 }

/-- Witness for `remove_duplicates_keeps_min_radius`: two hits of the same
particle in the same layer at radii 10 and 20; only the radius-10 hit is
retained. -/
theorem remove_duplicates_keeps_min_radius_witness :
    ((1 : ℕ) ≠ 0 ∧ [h10, h20].filter (fun h => h.particle_id.getD 0 == 1 && h.layer.getD 0 == 0) ≠ []) ∧
    ((∃ h0,
      (remove_duplicates_step [h10, h20]).filter
        (fun h => h.particle_id.getD 0 == 1 && h.layer.getD 0 == 0) = [h0] ∧
      h0 ∈ [h10, h20].filter (fun h => h.particle_id.getD 0 == 1 && h.layer.getD 0 == 0) ∧
      ∀ h2 ∈ [h10, h20].filter (fun h => h.particle_id.getD 0 == 1 && h.layer.getD 0 == 0),
        h0.r.getD 0 ≤ h2.r.getD 0) ∧
    (remove_duplicates_step [h10, h20]).filter (fun h => h.particle_id.getD 0 == 0) =
      [h10, h20].filter (fun h => h.particle_id.getD 0 == 0)) ∧
    remove_duplicates_step [h10, h20] = [h10] :=
  ⟨⟨by decide, by decide⟩,
   remove_duplicates_keeps_min_radius [h10, h20] 1 0 (by decide) (by decide),
   by norm_num [remove_duplicates_step, np_unique_pairs, List.insertionSort,
     List.orderedInsert, h10, h20]⟩

theorem lookup_mem {β : Type} : ∀ (l : List (ℕ × β)) (k : ℕ) (v : β),
    l.lookup k = some v → (k, v) ∈ l
  | [], _, _, h => by cases h
  | (a, b) :: t, k, v, h => by
    simp only [List.lookup] at h
    cases hak : (k == a) with
    | true =>
      rw [hak] at h
      simp only [Option.some.injEq] at h
      subst h
      have hka : k = a := by simpa using hak
      subst hka
      exact List.mem_cons_self _ _
    | false =>
      rw [hak] at h
      exact List.mem_cons_of_mem _ (lookup_mem t k v h)

theorem lookup_found {β : Type} : ∀ (l : List (ℕ × β)) (k : ℕ),
    k ∈ l.map Prod.fst → ∃ v, l.lookup k = some v
  | [], _, h => by cases h
  | (a, b) :: t, k, h => by
    simp only [List.lookup]
    cases hak : (k == a) with
    | true => exact ⟨b, rfl⟩
    | false =>
      apply lookup_found t k
      rw [List.map_cons] at h
      rcases List.mem_cons.mp h with h1 | h1
      · rw [h1] at hak
        simp at hak
      · exact h1

theorem pid_pairs_fst (kp : List ℕ) :
    (kp.enum.map (fun q => (q.2, q.1 + 1))).map Prod.fst = kp := by
  rw [List.map_map]
  exact List.enum_map_snd kp

theorem pid_pairs_snd_pos (kp : List ℕ) (q v : ℕ)
    (hm : (q, v) ∈ kp.enum.map (fun e => (e.2, e.1 + 1))) : 0 < v := by
  obtain ⟨e, _, he⟩ := List.mem_map.mp hm
  obtain ⟨_, hv⟩ := Prod.mk.inj he
  omega

theorem pid_pairs_inj (kp : List ℕ) (q1 q2 v : ℕ)
    (h1 : (q1, v) ∈ kp.enum.map (fun e => (e.2, e.1 + 1)))
    (h2 : (q2, v) ∈ kp.enum.map (fun e => (e.2, e.1 + 1))) : q1 = q2 := by
  obtain ⟨e1, he1m, he1⟩ := List.mem_map.mp h1
  obtain ⟨e2, he2m, he2⟩ := List.mem_map.mp h2
  obtain ⟨hq1, hv1⟩ := Prod.mk.inj he1
  obtain ⟨hq2, hv2⟩ := Prod.mk.inj he2
  have hidx : e1.1 = e2.1 := by omega
  have hg1 : kp[e1.1]? = some e1.2 := List.mk_mem_enum_iff_getElem?.mp (by
    rwa [show ((e1.1, e1.2) : ℕ × ℕ) = e1 from rfl])
  have hg2 : kp[e2.1]? = some e2.2 := List.mk_mem_enum_iff_getElem?.mp (by
    rwa [show ((e2.1, e2.2) : ℕ × ℕ) = e2 from rfl])
  rw [hidx] at hg1
  rw [hg2] at hg1
  simp only [Option.some.injEq] at hg1
  rw [← hq1, ← hq2, hg1]

theorem pid_map_of_zero (kp : List ℕ) : pid_map_of kp 0 = 0 := by
  simp [pid_map_of, List.lookup]

theorem pid_map_of_lookup (kp : List ℕ) (q : ℕ) (hq : q ≠ 0) (hmem : q ∈ kp) :
    ∃ v, ((kp.enum.map (fun e => (e.2, e.1 + 1))).reverse.lookup q) = some v ∧
      pid_map_of kp q = v ∧ 0 < v := by
  have hfst : q ∈ (kp.enum.map (fun e => (e.2, e.1 + 1))).reverse.map Prod.fst := by
    rw [List.map_reverse, List.mem_reverse, pid_pairs_fst]
    exact hmem
  obtain ⟨v, hv⟩ := lookup_found _ q hfst
  have hvpos : 0 < v :=
    pid_pairs_snd_pos kp q v (List.mem_reverse.mp (lookup_mem _ q v hv))
  refine ⟨v, hv, ?_, hvpos⟩
  rw [pid_map_of]
  have h0 : (q == 0) = false := by simp [hq]
  simp only [List.lookup, h0, hv, Option.getD_some]

theorem pid_map_of_pos (kp : List ℕ) (q : ℕ) (hq : q ≠ 0) (hmem : q ∈ kp) :
    0 < pid_map_of kp q := by
  obtain ⟨v, _, hpm, hvpos⟩ := pid_map_of_lookup kp q hq hmem
  omega

theorem pid_map_of_inj (kp : List ℕ) (q1 q2 : ℕ)
    (h1 : q1 = 0 ∨ q1 ∈ kp) (h2 : q2 = 0 ∨ q2 ∈ kp)
    (heq : pid_map_of kp q1 = pid_map_of kp q2) : q1 = q2 := by
  rcases h1 with rfl | h1
  · rcases h2 with rfl | h2
    · rfl
    · by_cases hq2 : q2 = 0
      · exact hq2.symm
      · obtain ⟨v, _, hpm, hvpos⟩ := pid_map_of_lookup kp q2 hq2 h2
        rw [pid_map_of_zero, hpm] at heq
        omega
  · by_cases hq1 : q1 = 0
    · subst hq1
      rcases h2 with rfl | h2
      · rfl
      · by_cases hq2 : q2 = 0
        · exact hq2.symm
        · obtain ⟨v, _, hpm, hvpos⟩ := pid_map_of_lookup kp q2 hq2 h2
          rw [pid_map_of_zero, hpm] at heq
          omega
    · by_cases hq2 : q2 = 0
      · subst hq2
        obtain ⟨v, _, hpm, hvpos⟩ := pid_map_of_lookup kp q1 hq1 h1
        rw [pid_map_of_zero, hpm] at heq
        omega
      · rcases h2 with rfl | h2
        · exact absurd rfl hq2
        · obtain ⟨v1, hl1, hpm1, _⟩ := pid_map_of_lookup kp q1 hq1 h1
          obtain ⟨v2, hl2, hpm2, _⟩ := pid_map_of_lookup kp q2 hq2 h2
          have hv12 : v1 = v2 := by omega
          subst hv12
          exact pid_pairs_inj kp q1 q2 v1
            (List.mem_reverse.mp (lookup_mem _ q1 v1 hl1))
            (List.mem_reverse.mp (lookup_mem _ q2 v1 hl2))

theorem hits_selected_columns_vlid (hits2 : List HRow) (h : HRow)
    (hm : h ∈ hits_selected_columns hits2) : h.volume_id = none := by
  obtain ⟨h2, _, rfl⟩ := List.mem_map.mp hm
  rfl

theorem hits_truth_merged_shape (hits3 : List HRow) (truth2 : List TRow) (h : HRow)
    (hm : h ∈ hits_truth_merged hits3 truth2) :
    ∃ h3 ∈ hits3, ∃ t ∈ truth2,
      h = { h3 with particle_id := some t.particle_id, pt := t.pt, eta_pt := t.eta_pt } := by
  obtain ⟨h3, hh3, hmap⟩ := List.mem_flatMap.mp hm
  obtain ⟨t, ht, rfl⟩ := List.mem_map.mp hmap
  exact ⟨h3, hh3, t, (List.mem_filter.mp ht).1, rfl⟩

theorem truth_with_pt_pid (truth : List TRow) (particles2 : List PRow) (t : TRow)
    (hm : t ∈ truth_with_pt truth particles2) :
    ∃ pp ∈ particles2, pp.particle_id = t.particle_id := by
  obtain ⟨t0, _, hmap⟩ := List.mem_flatMap.mp hm
  obtain ⟨pp, hpp, rfl⟩ := List.mem_map.mp hmap
  refine ⟨pp, (List.mem_filter.mp hpp).1, ?_⟩
  have := (List.mem_filter.mp hpp).2
  simpa using this

theorem select_hits_none_of_no_vlid (sqrtQ : ℚ → ℚ) (atan2Q : ℚ → ℚ → ℚ)
    (logQ tanQ : ℚ → ℚ) (hits : List HRow) (truth : List TRow) (particles : List PRow)
    (pt_min : ℚ) (endcaps remove_noise remove_duplicates : Bool)
    (hv : ∀ h ∈ hits, h.volume_id = none) :
    select_hits sqrtQ atan2Q logQ tanQ hits truth particles pt_min endcaps
      remove_noise remove_duplicates = none := by
  rw [select_hits]
  rcases hits with _ | ⟨h, t⟩
  · have hall : ((vlids endcaps).all (fun vl =>
        ([] : List HRow).any (fun h => h.volume_id == some vl.1 && h.layer_id == some vl.2))) = false := by
      rcases endcaps <;> rfl
    rw [List.all_nil, if_pos rfl, hall, if_neg Bool.false_ne_true]
  · have hfalse : ((h :: t).all (fun h => h.volume_id.isSome && h.layer_id.isSome)) = false := by
      rw [List.all_cons, hv h (List.mem_cons_self _ _)]
      rfl
    rw [hfalse, if_neg Bool.false_ne_true]

set_option maxHeartbeats 1000000 in
/-- C9 (amended): the Hit Selector is not idempotent — its output lacks
the `x`, `y`, `volume_id`, `layer_id` columns its own first step consumes,
so re-applying `select_hits` to the hits and particles it produced fails
(`none`, the modelled `KeyError`) for any truth table and flags.  The
output is a fixed point only in the weaker sense that every selection
criterion is already satisfied: every produced particle is above the pt
threshold, with `remove_noise` no noise hit remains (when the particles
table has no id-0 row), and with `remove_duplicates` each (particle,
layer) group holds at most one hit. -/
theorem select_hits_not_idempotent (sqrtQ : ℚ → ℚ) (atan2Q : ℚ → ℚ → ℚ) (logQ tanQ : ℚ → ℚ)
    (hits : List HRow) (truth : List TRow) (particles : List PRow)
    (pt_min : ℚ) (endcaps remove_noise remove_duplicates : Bool)
    (h1 : List HRow) (p1 : List PRow)
    (hok : select_hits sqrtQ atan2Q logQ tanQ hits truth particles pt_min endcaps
      remove_noise remove_duplicates = some (h1, p1)) :
    (∀ (truth' : List TRow) (pt_min' : ℚ) (ec' rn' rd' : Bool),
      select_hits sqrtQ atan2Q logQ tanQ h1 truth' p1 pt_min' ec' rn' rd' = none) ∧
    p1.all (fun p => decide (p.pt.getD 0 > pt_min)) = true ∧
    (remove_noise = true → (∀ p ∈ particles, p.particle_id ≠ 0) →
      h1.filter (fun h => h.particle_id.getD 0 == 0) = []) ∧
    (remove_duplicates = true → ∀ p l0 : ℕ, p ≠ 0 →
      (h1.filter (fun h => h.particle_id.getD 0 == p && h.layer.getD 0 == l0)).length ≤ 1) := by
  rw [select_hits] at hok
  by_cases c1 : (hits.all fun h => h.volume_id.isSome && h.layer_id.isSome) = true
  case neg =>
    rw [if_neg c1] at hok
    cases hok
  rw [if_pos c1] at hok
  by_cases c2 : ((vlids endcaps).all fun vl =>
      hits.any fun h => h.volume_id == some vl.1 && h.layer_id == some vl.2) = true
  case neg =>
    rw [if_neg c2] at hok
    cases hok
  rw [if_pos c2] at hok
  dsimp only at hok
  by_cases c3 : ((layered_hits endcaps hits).all fun h => h.x.isSome && h.y.isSome) = true
  case neg =>
    rw [if_neg c3] at hok
    cases hok
  rw [if_pos c3] at hok
  simp only [Option.some.injEq, Prod.mk.injEq] at hok
  obtain ⟨hA, hB⟩ := hok
  subst hA
  subst hB
  set P2 := (particles_with_pt sqrtQ atan2Q logQ tanQ particles).filter
    (fun p => decide (p.pt.getD 0 > pt_min)) with hP2
  set T2 := (if remove_noise = true then truth_with_pt truth P2
    else truth_with_pt truth P2 ++
      (truth.filter (fun t => t.particle_id == 0)).map
        (fun t => ({ hit_id := t.hit_id, particle_id := t.particle_id, pt := some 0 } : TRow)))
    with hT2
  set H4 := hits_truth_merged
    (hits_selected_columns (hits_with_derived sqrtQ atan2Q logQ tanQ (layered_hits endcaps hits)))
    T2 with hH4
  set H5 := (if remove_duplicates = true then remove_duplicates_step H4 else H4) with hH5
  set KEEP := P2.filter
    (fun p => (H5.map (fun h => h.particle_id.getD 0)).contains p.particle_id) with hKEEP
  set KP := KEEP.map (fun p => p.particle_id) with hKP
  have hH5sub : ∀ h ∈ H5, h ∈ H4 := by
    intro h hm
    rw [hH5] at hm
    rcases remove_duplicates with _ | _
    · simpa using hm
    · exact mem_of_mem_remove_duplicates H4 h (by simpa using hm)
  have hH4vol : ∀ h ∈ H4, h.volume_id = none := by
    intro h hm
    rw [hH4] at hm
    obtain ⟨h3, hh3, t, _, rfl⟩ := hits_truth_merged_shape _ _ h hm
    exact hits_selected_columns_vlid _ h3 hh3
  have hP2pid : ∀ pp ∈ P2, ∃ po ∈ particles, po.particle_id = pp.particle_id := by
    intro pp hpp
    rw [hP2] at hpp
    obtain ⟨po, hpo, rfl⟩ := List.mem_map.mp (List.mem_filter.mp hpp).1
    exact ⟨po, hpo, rfl⟩
  have hrawpid : ∀ h ∈ H5,
      (∃ pp ∈ P2, pp.particle_id = h.particle_id.getD 0) ∨
      (remove_noise = false ∧ h.particle_id.getD 0 = 0) := by
    intro h hm
    have hm4 := hH5sub h hm
    rw [hH4] at hm4
    obtain ⟨h3, _, t, ht, rfl⟩ := hits_truth_merged_shape _ _ h hm4
    rw [hT2] at ht
    rcases remove_noise with _ | _
    · simp only [Bool.false_eq_true, if_false] at ht
      rcases List.mem_append.mp ht with ht | ht
      · left
        exact truth_with_pt_pid truth P2 t ht
      · right
        obtain ⟨t0, ht0, rfl⟩ := List.mem_map.mp ht
        have h00 := (List.mem_filter.mp ht0).2
        simp only [beq_iff_eq] at h00
        exact ⟨rfl, h00⟩
    · left
      simp only [if_pos rfl] at ht
      exact truth_with_pt_pid truth P2 t ht
  have hkp : ∀ h ∈ H5, h.particle_id.getD 0 ≠ 0 → h.particle_id.getD 0 ∈ KP := by
    intro h hm hne
    rcases hrawpid h hm with ⟨pp, hpp, hppid⟩ | ⟨_, h0⟩
    · have hcont : ((H5.map (fun h => h.particle_id.getD 0)).contains pp.particle_id) = true := by
        rw [List.contains_eq_any_beq, List.any_eq_true]
        exact ⟨h.particle_id.getD 0, List.mem_map_of_mem _ hm, by simp [hppid]⟩
      have hkeep : pp ∈ KEEP := by
        rw [hKEEP]
        exact List.mem_filter.mpr ⟨hpp, hcont⟩
      rw [hKP]
      exact hppid ▸ List.mem_map_of_mem (fun p => p.particle_id) hkeep
    · exact absurd h0 hne
  refine ⟨?_, ?_, ?_, ?_⟩
  · intro truth' pt_min' ec' rn' rd'
    apply select_hits_none_of_no_vlid
    intro h hm
    obtain ⟨h5, hh5, rfl⟩ := List.mem_map.mp hm
    exact hH4vol h5 (hH5sub h5 hh5)
  · rw [List.all_eq_true]
    intro p hp
    obtain ⟨pp, hpp, rfl⟩ := List.mem_map.mp hp
    have hpp2 : pp ∈ P2 := by
      rw [hKEEP] at hpp
      exact (List.mem_filter.mp hpp).1
    rw [hP2] at hpp2
    exact (List.mem_filter.mp hpp2).2
  · intro hrn hparts
    rw [List.filter_eq_nil_iff]
    intro a ha
    obtain ⟨h5, hh5, rfl⟩ := List.mem_map.mp ha
    rcases hrawpid h5 hh5 with ⟨pp, hpp, hppid⟩ | ⟨hfalse, _⟩
    · obtain ⟨po, hpo, hpoid⟩ := hP2pid pp hpp
      have hne : h5.particle_id.getD 0 ≠ 0 := by
        rw [← hppid, ← hpoid]
        exact hparts po hpo
      have hpos := pid_map_of_pos KP (h5.particle_id.getD 0) hne (hkp h5 hh5 hne)
      simp only [beq_iff_eq, Option.getD_some]
      omega
    · rw [hrn] at hfalse
      cases hfalse
  · intro hrd p l0 hp
    rw [List.filter_map, List.length_map, ← List.countP_eq_length_filter]
    rcases Nat.eq_zero_or_pos (H5.countP
        ((fun h => h.particle_id.getD 0 == p && h.layer.getD 0 == l0) ∘
          (fun h => { h with particle_id := some (pid_map_of KP (h.particle_id.getD 0)) }))) with
      h0 | hpos
    · omega
    · obtain ⟨hstar, hsmem, hscond⟩ := List.countP_pos_iff.mp hpos
      simp only [Function.comp_def, Bool.and_eq_true, beq_iff_eq, Option.getD_some] at hscond
      have hq0ne : hstar.particle_id.getD 0 ≠ 0 := by
        intro h00
        rw [h00, pid_map_of_zero] at hscond
        exact hp hscond.1.symm
      have hq0kp := hkp hstar hsmem hq0ne
      have hmono : H5.countP
          ((fun h => h.particle_id.getD 0 == p && h.layer.getD 0 == l0) ∘
            (fun h => { h with particle_id := some (pid_map_of KP (h.particle_id.getD 0)) })) ≤
          H5.countP (fun h => h.particle_id.getD 0 == hstar.particle_id.getD 0 &&
            h.layer.getD 0 == l0) := by
        apply List.countP_mono_left
        intro a ha hca
        simp only [Function.comp_def, Bool.and_eq_true, beq_iff_eq, Option.getD_some] at hca
        have hane : a.particle_id.getD 0 ≠ 0 := by
          intro h00
          rw [h00, pid_map_of_zero] at hca
          exact hp hca.1.symm
        have hakp := hkp a ha hane
        have haq0 : a.particle_id.getD 0 = hstar.particle_id.getD 0 :=
          pid_map_of_inj KP _ _ (Or.inr hakp) (Or.inr hq0kp) (by rw [hca.1, hscond.1])
        simp [haq0, hca.2]
      apply le_trans hmono
      rw [List.countP_eq_length_filter]
      have hH5eq : H5 = remove_duplicates_step H4 := by
        rw [hH5, hrd]
        simp
      rw [hH5eq]
      exact remove_duplicates_group_le_one H4 (hstar.particle_id.getD 0) l0 hq0ne

/-- Concrete stand-in for `np.sqrt` in witnesses. -/
def sqrtW : ℚ → ℚ := fun q => q

/-- Raw hits of the C9 counterexample event: one hit in each of the four
barrel vlid groups. -/
def hitsR : List HRow := [
  { hit_id := 1, z := 0, module_id := 0, x := some 1, y := some 0, volume_id := some 8, layer_id := some 2 },
  { hit_id := 2, z := 0, module_id := 0, x := some 2, y := some 0, volume_id := some 8, layer_id := some 4 },
  { hit_id := 3, z := 0, module_id := 0, x := some 3, y := some 0, volume_id := some 8, layer_id := some 6 },
  { hit_id := 4, z := 0, module_id := 0, x := some 4, y := some 0, volume_id := some 8, layer_id := some 8 }]

/-- Truth table of the C9 counterexample event. -/
def truthR : List TRow := [
  { hit_id := 1, particle_id := 5 }, { hit_id := 2, particle_id := 5 },
  { hit_id := 3, particle_id := 5 }, { hit_id := 4, particle_id := 5 }]

/-- Particles table of the C9 counterexample event. -/
def partsR : List PRow := [{ particle_id := 5, px := 2, py := 0, pz := 0 }]

/-- First output hits of `select_hits` on the counterexample event: the
raw columns x, y, volume_id, layer_id are gone. -/
def shH1 : List HRow := [
  { hit_id := 1, z := 0, module_id := 0, r := some 1, phi := some 1, eta := some 0,
    layer := some 0, particle_id := some 1, pt := some 4, eta_pt := some 0 },
  { hit_id := 2, z := 0, module_id := 0, r := some 4, phi := some 2, eta := some 0,
    layer := some 1, particle_id := some 1, pt := some 4, eta_pt := some 0 },
  { hit_id := 3, z := 0, module_id := 0, r := some 9, phi := some 3, eta := some 0,
    layer := some 2, particle_id := some 1, pt := some 4, eta_pt := some 0 },
  { hit_id := 4, z := 0, module_id := 0, r := some 16, phi := some 4, eta := some 0,
    layer := some 3, particle_id := some 1, pt := some 4, eta_pt := some 0 }]

/-- First output particles of `select_hits` on the counterexample event. -/
def shP1 : List PRow := [{ particle_id := 1, px := 2, py := 0, pz := 0, pt := some 4, eta_pt := some 0 }]

/-- C9 counterexample: `select_hits` succeeds on the raw event, but
applying it a second time, with identical flag settings, to the hits and
particles it produced does not reproduce them — it fails outright, because
the output lacks the `volume_id`/`layer_id` (and x, y) columns the
selector's first `groupby` consumes. -/
theorem select_hits_reapply_fails :
    select_hits sqrtW at2W logW tanW hitsR truthR partsR 1 false false false = some (shH1, shP1) ∧
    select_hits sqrtW at2W logW tanW shH1 truthR shP1 1 false false false = none ∧
    select_hits sqrtW at2W logW tanW shH1 truthR shP1 1 false false false ≠ some (shH1, shP1) := by
  refine ⟨?_, ?_, ?_⟩
  · norm_num [select_hits, layered_hits, vlids, particles_with_pt, truth_with_pt,
      hits_with_derived, hits_selected_columns, hits_truth_merged, pid_map_of, calc_eta,
      sqrtW, at2W, logW, tanW, hitsR, truthR, partsR, List.lookup, List.enum,
      List.enumFrom, shH1, shP1]
    decide
  · norm_num [select_hits, shH1]
  · norm_num [select_hits, shH1]
    intro hcontra
    cases hcontra

/-- Witness for `select_hits_not_idempotent` at the counterexample
event. -/
theorem select_hits_not_idempotent_witness :
    (select_hits sqrtW at2W logW tanW hitsR truthR partsR 1 false false false = some (shH1, shP1)) ∧
    ((∀ (truth' : List TRow) (pt_min' : ℚ) (ec' rn' rd' : Bool),
      select_hits sqrtW at2W logW tanW shH1 truth' shP1 pt_min' ec' rn' rd' = none) ∧
    shP1.all (fun p => decide (p.pt.getD 0 > 1)) = true ∧
    (false = true → (∀ p ∈ partsR, p.particle_id ≠ 0) →
      shH1.filter (fun h => h.particle_id.getD 0 == 0) = []) ∧
    (false = true → ∀ p l0 : ℕ, p ≠ 0 →
      (shH1.filter (fun h => h.particle_id.getD 0 == p && h.layer.getD 0 == l0)).length ≤ 1)) :=
  ⟨by
    norm_num [select_hits, layered_hits, vlids, particles_with_pt, truth_with_pt,
      hits_with_derived, hits_selected_columns, hits_truth_merged, pid_map_of, calc_eta,
      sqrtW, at2W, logW, tanW, hitsR, truthR, partsR, List.lookup, List.enum,
      List.enumFrom, shH1, shP1]
    decide,
   select_hits_not_idempotent sqrtW at2W logW tanW hitsR truthR partsR 1 false false false
     shH1 shP1 (by
       norm_num [select_hits, layered_hits, vlids, particles_with_pt, truth_with_pt,
         hits_with_derived, hits_selected_columns, hits_truth_merged, pid_map_of, calc_eta,
         sqrtW, at2W, logW, tanW, hitsR, truthR, partsR, List.lookup, List.enum,
         List.enumFrom, shH1, shP1]
       decide)⟩
